import Mathlib

/-!
Verification of the shortest-path core of py3algs: Johnson's all-pairs
shortest paths together with its dependency solvers (Bellman-Ford, Dijkstra)
and the binary heap, as implemented in
`py3algs/algorithms/bellman_ford_sssp.py`, `py3algs/algorithms/dijkstra_sssp.py`,
`py3algs/algorithms/johnsons_apsp.py` and `py3algs/datastructs/binary_heap.py`.

Embedding conventions:
* networkx node identifiers are embedded as naturals; edge weights (the value
  stored under the weight attribute) as rationals.
* Python float distances, which can be `float('inf')`, are embedded as
  `WithTop ℚ` with `⊤` playing the role of `+infinity`.
* Python dicts keyed by nodes are embedded as total functions; all dict reads
  performed by the algorithms on a well-formed input hit initialized keys, so
  the totalization does not change behaviour on the stated hypotheses.
* Exceptions are embedded as `Except` error values.
-/

namespace Py3Algs

/-- Distance values: rationals extended with `+infinity` (Python `float('inf')`). -/
abbrev DistVal : Type := WithTop ℚ

/-- Model of a networkx directed graph as consumed by the solvers: the node
list (iteration order of `nodes_iter`) and the edge list (iteration order of
`edges_iter(data=True)`), each edge carrying its weight-attribute value. -/
structure Graph where
  nodes : List ℕ
  edges : List (ℕ × ℕ × ℚ)
deriving DecidableEq

/-- Facts networkx guarantees for every graph object: node identifiers are
unique, and both endpoints of every edge are nodes of the graph. -/
def Graph.WF (g : Graph) : Prop :=
  g.nodes.Nodup ∧ ∀ e ∈ g.edges, e.1 ∈ g.nodes ∧ e.2.1 ∈ g.nodes

instance (g : Graph) : Decidable g.WF := by
  unfold Graph.WF; infer_instance

/-- `graph_.copy()`: with value semantics, a deep copy is the identity on the
graph value; the point of copying in the source is that later mutations hit
the copy, which the embedding renders as rebindings of the copied value. -/
def Graph.copy (g : Graph) : Graph := g

/-- Python dict assignment `d[k] = v`, on dicts embedded as total functions. -/
def dictSet {β : Type} (f : ℕ → β) (k : ℕ) (v : β) : ℕ → β :=
  fun x => if x = k then v else f x

/-- The `DistAndPred` namedtuple: distance and predecessor maps. -/
structure DistAndPred where
  dist : ℕ → DistVal
  pred : ℕ → Option ℕ

/-- The `NegativeCycleError` exception class of `bellman_ford_sssp.py`. -/
inductive NegativeCycleError where
  | mk : NegativeCycleError
deriving DecidableEq

/-- A fresh node identifier not occurring in the graph.  The source picks the
string sentinel `'_temp_supersource'` (resp. `'_supersource'`), falling back to
a timestamped variant on collision; with nodes embedded as naturals the same
contract — produce an identifier that is not already a node — is realized by
exceeding the maximum node. -/
def Graph.freshNode (g : Graph) : ℕ := (g.nodes.foldr max 0) + 1

/-- `_add_supersource` of `johnsons_apsp.py`, and the identical inline block of
`has_negative_cycle` in `bellman_ford_sssp.py`: add a new supersource node and
a zero-weight edge from it to every original node (the source also adds the
self-loop `ss -> ss` and immediately removes it; the net effect is embedded). -/
def add_supersource (g : Graph) : ℕ × Graph :=
  let ss := g.freshNode
  (ss, { nodes := g.nodes ++ [ss],
         edges := g.edges ++ g.nodes.map (fun v => (ss, v, (0 : ℚ))) })

namespace bellman_ford_sssp

/-- `_init` of `bellman_ford_sssp.py`: every node's distance is infinity and
its predecessor `None`, then `dist[source] = 0` (creating the key if the source
is not a node, exactly as a Python dict assignment does). -/
def _init (g : Graph) (source : ℕ) : DistAndPred :=
  { dist := dictSet (fun _ => (⊤ : DistVal)) source 0
    pred := fun _ => none }

/-- The body of the relaxation loops: relax one edge `(u, v, w)` against the
current maps. -/
def relax (dp : DistAndPred) (e : ℕ × ℕ × ℚ) : DistAndPred :=
  if dp.dist e.1 + (e.2.2 : DistVal) < dp.dist e.2.1 then
    { dist := dictSet dp.dist e.2.1 (dp.dist e.1 + (e.2.2 : DistVal))
      pred := dictSet dp.pred e.2.1 (some e.1) }
  else dp

/-- One full pass over every edge (one iteration of the main loop). -/
def relaxPass (g : Graph) (dp : DistAndPred) : DistAndPred :=
  g.edges.foldl relax dp

/-- The maps after the first `k` full passes. -/
def bfIter (g : Graph) (source : ℕ) (k : ℕ) : DistAndPred :=
  (relaxPass g)^[k] (_init g source)

/-- `bellman_ford_shortest_paths`: `|V| - 1` full relaxation passes, then one
verification pass; if any edge still relaxes, raise `NegativeCycleError`,
otherwise return the maps. -/
def bellman_ford_shortest_paths (g : Graph) (source : ℕ) :
    Except NegativeCycleError DistAndPred :=
  let dp := bfIter g source (g.nodes.length - 1)
  if g.edges.any (fun e => decide (dp.dist e.1 + (e.2.2 : DistVal) < dp.dist e.2.1)) then
    .error .mk
  else
    .ok dp

/-- `has_negative_cycle`: work on a copy, add a supersource with zero-weight
edges to every node, run Bellman-Ford from it and interpret the outcome. -/
def has_negative_cycle (g_ : Graph) : Bool :=
  let graph := g_.copy
  let sg := add_supersource graph
  match bellman_ford_shortest_paths sg.2 sg.1 with
  | .error _ => true
  | .ok _ => false

end bellman_ford_sssp

/-! ### The binary heap of `binary_heap.py`

Items are compared through a boolean comparator `less` (the `__init__` of
`BinaryHeap` stores `operator.lt` for the default min-heap); indexing uses
`getD` with the `Inhabited` default, and every access the source performs is
in bounds. -/

namespace binary_heap

/-- `_swap`: exchange the items at positions `a` and `b` (both sides of the
Python tuple assignment read the original list). -/
def _swap {α : Type} [Inhabited α] (l : List α) (a b : ℕ) : List α :=
  (l.set a (l.getD b default)).set b (l.getD a default)

/-- `_shift_up`: move the item at `index` up while its parent is not
strictly less than it. -/
def _shift_up {α : Type} [Inhabited α] (less : α → α → Bool) (l : List α)
    (index : ℕ) : List α :=
  if 0 < index ∧ ¬ less (l.getD ((index - 1) / 2) default) (l.getD index default) then
    _shift_up less (_swap l index ((index - 1) / 2)) ((index - 1) / 2)
  else l
termination_by index
decreasing_by omega

/-- The min-child selection of `_shift_down`: prefer the right child iff it
exists and is strictly less than the left one; `none` when there are no
children (the source's try/except IndexError ladder). -/
def _min_child {α : Type} [Inhabited α] (less : α → α → Bool) (l : List α)
    (index : ℕ) : Option ℕ :=
  if 2 * index + 2 < l.length then
    if less (l.getD (2 * index + 2) default) (l.getD (2 * index + 1) default) then
      some (2 * index + 2)
    else
      some (2 * index + 1)
  else if 2 * index + 1 < l.length then
    some (2 * index + 1)
  else
    none

/-- `_shift_down`: move the item at `index` down, swapping with its least
child while that child is strictly less than it. -/
def _shift_down {α : Type} [Inhabited α] (less : α → α → Bool) (l : List α)
    (index : ℕ) : List α :=
  match hmc : _min_child less l index with
  | none => l
  | some mc =>
      if less (l.getD mc default) (l.getD index default) then
        _shift_down less (_swap l index mc) mc
      else l
termination_by l.length - index
decreasing_by
  simp only [_min_child] at hmc
  simp only [_swap, List.length_set]
  split_ifs at hmc with h1 h2 h3 <;> simp only [Option.some.injEq] at hmc <;> omega

/-- Python `LookupError`, as raised by `peek` and `pop` on an empty heap. -/
structure LookupError where
  message : String
deriving DecidableEq

/-- The `BinaryHeap` object: the backing list and the comparator stored by
`__init__` (`operator.lt` unless `max_=True`).  Only the default construction
`BinaryHeap()` — empty list, min-comparator — is exercised by this core, so
the `heapify` initial-list path is not modelled. -/
structure BinaryHeap (α : Type) where
  _less : α → α → Bool
  _items : List α

/-- `BinaryHeap()` with the default `max_=False`: empty items, comparator
`less`. -/
def BinaryHeap.empty {α : Type} (less : α → α → Bool) : BinaryHeap α :=
  { _less := less, _items := [] }

/-- `__len__`. -/
def BinaryHeap.len {α : Type} (h : BinaryHeap α) : ℕ := h._items.length

/-- `insert`: append, then shift the new last item up. -/
def BinaryHeap.insert {α : Type} [Inhabited α] (h : BinaryHeap α) (item : α) :
    BinaryHeap α :=
  { h with
      _items := _shift_up h._less (h._items ++ [item]) ((h._items ++ [item]).length - 1) }

/-- `peek`: the root item, or `LookupError('peek into empty heap')`. -/
def BinaryHeap.peek {α : Type} [Inhabited α] (h : BinaryHeap α) :
    Except LookupError α :=
  if h._items.length = 0 then .error ⟨"peek into empty heap"⟩
  else .ok (h._items.getD 0 default)

/-- `pop`: swap root and last item, remove the last, shift the root down;
returns the removed item together with the mutated heap, or
`LookupError('pop from empty heap')`. -/
def BinaryHeap.pop {α : Type} [Inhabited α] (h : BinaryHeap α) :
    Except LookupError (α × BinaryHeap α) :=
  if h._items.length = 0 then .error ⟨"pop from empty heap"⟩
  else
    let l := _swap h._items 0 (h._items.length - 1)
    let min_item := l.getD (l.length - 1) default
    .ok (min_item, { h with _items := _shift_down h._less l.dropLast 0 })

/-- The comparator laws the heap relies on, satisfied by Python `<` on any
totally ordered item type: asymmetry, and transitivity of the complement. -/
def LessOk {α : Type} (less : α → α → Bool) : Prop :=
  (∀ a b, less a b = true → less b a = false) ∧
  (∀ a b c, less b a = false → less c b = false → less c a = false)

/-- The heap-order invariant of the backing list: no item is strictly less
than its parent. -/
def HeapInv {α : Type} [Inhabited α] (less : α → α → Bool) (l : List α) : Prop :=
  ∀ j, 0 < j → j < l.length →
    less (l.getD j default) (l.getD ((j - 1) / 2) default) = false

/-- Python `operator.lt` on a totally ordered type. -/
def ltb {α : Type} [LinearOrder α] : α → α → Bool := fun a b => decide (a < b)

/-- The heap states reachable by any sequence of `insert` and (successful)
`pop` calls on `BinaryHeap()`. -/
inductive Reachable {α : Type} [Inhabited α] (less : α → α → Bool) :
    BinaryHeap α → Prop where
  | empty : Reachable less (BinaryHeap.empty less)
  | insert {h : BinaryHeap α} (x : α) :
      Reachable less h → Reachable less (h.insert x)
  | pop {h : BinaryHeap α} {x : α} {h' : BinaryHeap α} :
      Reachable less h → h.pop = .ok (x, h') → Reachable less h'

/-- The keys obtained by `n` successive `pop` calls (stopping at an empty
heap). -/
def popAll {α : Type} [Inhabited α] : ℕ → BinaryHeap α → List α
  | 0, _ => []
  | n + 1, h =>
      match h.pop with
      | .error _ => []
      | .ok (x, h') => x :: popAll n h'

/-! The three length lemmas below sit among the definitions because the
termination argument of the Dijkstra main loop needs them. -/

theorem _swap_length {α : Type} [Inhabited α] (l : List α) (a b : ℕ) :
    (_swap l a b).length = l.length := by
  simp [_swap]

theorem _shift_down_length {α : Type} [Inhabited α] (less : α → α → Bool)
    (l : List α) (index : ℕ) : (_shift_down less l index).length = l.length := by
  induction l, index using _shift_down.induct less with
  | case1 l index hmc =>
      unfold _shift_down
      split
      · rfl
      · rename_i mc heq
        rw [hmc] at heq
        exact Option.noConfusion heq
  | case2 l index mc hmc hlt ih =>
      unfold _shift_down
      split
      · rfl
      · rename_i mc' heq
        rw [hmc] at heq
        cases Option.some.inj heq
        rw [if_pos hlt, ih, _swap_length]
  | case3 l index mc hmc hlt =>
      unfold _shift_down
      split
      · rfl
      · rename_i mc' heq
        rw [hmc] at heq
        cases Option.some.inj heq
        rw [if_neg hlt]

theorem pop_ok_length {α : Type} [Inhabited α] {h : BinaryHeap α} {x : α}
    {h' : BinaryHeap α} (hp : h.pop = .ok (x, h')) :
    h'._items.length + 1 = h._items.length := by
  unfold BinaryHeap.pop at hp
  split at hp
  · cases hp
  · rename_i hne
    simp only [Except.ok.injEq, Prod.mk.injEq] at hp
    have := hp.2
    subst this
    simp only [_shift_down_length, List.length_dropLast, _swap_length]
    omega

end binary_heap

/-! ### Dijkstra's solver of `dijkstra_sssp.py` -/

namespace dijkstra_sssp

open binary_heap

/-- Python `<` on the `(distance, node)` tuples the solver pushes:
lexicographic tuple comparison. -/
def tupleLess (a b : DistVal × ℕ) : Bool :=
  decide (a.1 < b.1 ∨ (a.1 = b.1 ∧ a.2 < b.2))

/-- `graph.edges(u, data=True)`: the outgoing edges of `u`. -/
def edgesFrom (g : Graph) (u : ℕ) : List (ℕ × ℕ × ℚ) :=
  g.edges.filter (fun e => decide (e.1 = u))

/-- The mutable state of `dijkstra_shortest_paths`: the three dicts built by
`_init`, the `num_finalized` counter and the heap. -/
structure DState where
  dist : ℕ → DistVal
  pred : ℕ → Option ℕ
  finalized : ℕ → Bool
  num_finalized : ℕ
  heap : BinaryHeap (DistVal × ℕ)

/-- `_init` of `dijkstra_sssp.py` (everything infinite / `None` / not
finalized), the assignment `dist[source] = 0`, the construction `heap_type()`
(the default `BinaryHeap()` min-heap comparing items with Python `<`), and the
initial `heap.insert((dist[source], source))`. -/
def initState (source : ℕ) : DState :=
  let dist := dictSet (fun _ => (⊤ : DistVal)) source 0
  { dist := dist
    pred := fun _ => none
    finalized := fun _ => false
    num_finalized := 0
    heap := (BinaryHeap.empty tupleLess).insert (dist source, source) }

/-- The body of `for _, v, edge_attrs in graph.edges(u, data=True)`: relax
the edge, push a fresh `(dist[v], v)` entry, record the predecessor. -/
def relaxEdge (u : ℕ) (st : DState) (e : ℕ × ℕ × ℚ) : DState :=
  if st.dist u + (e.2.2 : DistVal) < st.dist e.2.1 then
    { st with
        dist := dictSet st.dist e.2.1 (st.dist u + (e.2.2 : DistVal))
        heap := st.heap.insert (st.dist u + (e.2.2 : DistVal), e.2.1)
        pred := dictSet st.pred e.2.1 (some u) }
  else st

/-- The main `while` loop.  Under the guard `len(heap) > 0` the `pop` cannot
fail; the `.error` branch (where the source would see a `LookupError`) is dead
and returns the state unchanged. -/
def loop (g : Graph) (st : DState) : DState :=
  if hguard : st.num_finalized < g.nodes.length ∧ 0 < st.heap._items.length then
    match hpop : st.heap.pop with
    | .error _ => st
    | .ok (item, heap') =>
        if st.finalized item.2 then
          loop g { st with heap := heap' }
        else
          loop g ((edgesFrom g item.2).foldl (relaxEdge item.2)
            { st with
                heap := heap'
                finalized := dictSet st.finalized item.2 true
                num_finalized := st.num_finalized + 1 })
  else st
termination_by (g.nodes.length - st.num_finalized, st.heap._items.length)
decreasing_by
  · apply Prod.Lex.right
    have := pop_ok_length hpop
    omega
  · apply Prod.Lex.left
    have hfold : ∀ (l : List (ℕ × ℕ × ℚ)) (st' : DState),
        (l.foldl (relaxEdge item.2) st').num_finalized = st'.num_finalized := by
      intro l
      induction l with
      | nil => intro st'; rfl
      | cons e l ih =>
          intro st'
          rw [List.foldl_cons, ih]
          unfold relaxEdge
          split <;> rfl
    rw [hfold]
    dsimp only
    omega

/-- `dijkstra_shortest_paths`: run the loop from the initial state and return
the distance and predecessor dicts. -/
def dijkstra_shortest_paths (g : Graph) (source : ℕ) : DistAndPred :=
  let st := loop g (initState source)
  { dist := st.dist, pred := st.pred }

end dijkstra_sssp

/-! ### Johnson's orchestrator of `johnsons_apsp.py` -/

namespace johnsons_apsp

/-- `graph.remove_node(v)`: drop the node and every incident edge. -/
def remove_node (g : Graph) (v : ℕ) : Graph :=
  { nodes := g.nodes.filter (fun x => decide (x ≠ v))
    edges := g.edges.filter (fun e => decide (e.1 ≠ v) && decide (e.2.1 ≠ v)) }

/-- `_compute_node_weights`: add a supersource, run Bellman-Ford from it (a
`NegativeCycleError` propagates), remove the supersource again, and return the
node-weight dict together with the restored working graph.  The deletion
`del node_weight[ss]` restricts the dict to the original nodes; dicts are
embedded as total functions, and the weights are only ever read at original
nodes.  The float distances are extracted to ℚ by `untop' 0`: the supersource
reaches every node in one zero-weight step, so every value read is finite and
the fallback is never used (theorem `node_weight_finite`). -/
def _compute_node_weights (g : Graph) :
    Except NegativeCycleError ((ℕ → ℚ) × Graph) :=
  let sg := add_supersource g
  match bellman_ford_sssp.bellman_ford_shortest_paths sg.2 sg.1 with
  | .error e => .error e
  | .ok dp => .ok (fun v => (dp.dist v).untop' 0, remove_node sg.2 sg.1)

/-- `_reweight_edges_using_node_weights`: reassign every edge's weight
attribute to `weight + node_weight[u] - node_weight[v]`. -/
def _reweight_edges_using_node_weights (g : Graph) (node_weight : ℕ → ℚ) : Graph :=
  { g with
      edges := g.edges.map (fun e =>
        (e.1, e.2.1, e.2.2 + node_weight e.1 - node_weight e.2.1)) }

/-- `johnsons_all_pairs_shortest_paths`: work on a copy; compute node weights
(propagating `NegativeCycleError`); reweight; run Dijkstra from every node;
undo the reweighting on the distances.  The correction
`dist[u][v] - node_weight[u] + node_weight[v]` is embedded as adding the
rational `node_weight[v] - node_weight[u]` into `WithTop ℚ`, which agrees with
the float arithmetic of the source for finite and infinite distances alike. -/
def johnsons_all_pairs_shortest_paths (graph_ : Graph) :
    Except NegativeCycleError ((ℕ → ℕ → DistVal) × (ℕ → ℕ → Option ℕ)) :=
  let graph := graph_.copy
  match _compute_node_weights graph with
  | .error e => .error e
  | .ok nwg =>
      let node_weight := nwg.1
      let graph2 := _reweight_edges_using_node_weights nwg.2 node_weight
      let dist : ℕ → ℕ → DistVal := fun u v =>
        (dijkstra_sssp.dijkstra_shortest_paths graph2 u).dist v +
          ((node_weight v - node_weight u : ℚ) : DistVal)
      let pred : ℕ → ℕ → Option ℕ := fun u =>
        (dijkstra_sssp.dijkstra_shortest_paths graph2 u).pred
      .ok (dist, pred)

end johnsons_apsp

/-! ### Caller-object threading (frame effects)

Each `*_run` function pairs a solver's result with the final value of the
caller-supplied graph object.  The Bellman-Ford and Dijkstra solvers call only
reading methods (`nodes_iter`, `edges_iter`, `edges`, `number_of_nodes`) on
their argument; `has_negative_cycle` and `johnsons_all_pairs_shortest_paths`
first take `graph_.copy()` and call the mutating methods (`add_node`,
`add_edge`, `remove_edge`, `remove_node`, attribute assignment) on the copy
only, as the embedding above threads explicitly — so the caller's object is
returned as received. -/

def bellman_ford_run (g : Graph) (s : ℕ) :
    Except NegativeCycleError DistAndPred × Graph :=
  (bellman_ford_sssp.bellman_ford_shortest_paths g s, g)

def dijkstra_run (g : Graph) (s : ℕ) : DistAndPred × Graph :=
  (dijkstra_sssp.dijkstra_shortest_paths g s, g)

def has_negative_cycle_run (g : Graph) : Bool × Graph :=
  (bellman_ford_sssp.has_negative_cycle g, g)

def johnsons_run (g : Graph) :
    Except NegativeCycleError ((ℕ → ℕ → DistVal) × (ℕ → ℕ → Option ℕ)) × Graph :=
  (johnsons_apsp.johnsons_all_pairs_shortest_paths g, g)

/-! ### Walks, cycles and shortest-path distances (specification side) -/

/-- `IsWalk g s t p`: the edge list `p` is a walk from `s` to `t` in `g`. -/
inductive IsWalk (g : Graph) : ℕ → ℕ → List (ℕ × ℕ × ℚ) → Prop where
  | nil (v : ℕ) : IsWalk g v v []
  | cons {u v t : ℕ} {w : ℚ} {p : List (ℕ × ℕ × ℚ)} :
      (u, v, w) ∈ g.edges → IsWalk g v t p → IsWalk g u t ((u, v, w) :: p)

/-- Total weight of a walk. -/
def walkWeight (p : List (ℕ × ℕ × ℚ)) : ℚ := (p.map (fun e => e.2.2)).sum

/-- The node visited after the first `i` edges of a walk starting at `s`
(index `0` is the start node itself). -/
def nodeAt (s : ℕ) (p : List (ℕ × ℕ × ℚ)) : ℕ → ℕ
  | 0 => s
  | k + 1 => (p.getD k (0, 0, 0)).2.1

/-- The graph has a negative cycle some node of which is reachable from `s`. -/
def HasNegCycleFrom (g : Graph) (s : ℕ) : Prop :=
  ∃ u p c, IsWalk g s u p ∧ IsWalk g u u c ∧ c ≠ [] ∧ walkWeight c < 0

/-- The graph contains a negative cycle (anywhere). -/
def HasNegCycle (g : Graph) : Prop :=
  ∃ u c, IsWalk g u u c ∧ c ≠ [] ∧ walkWeight c < 0

/-- `d` is the shortest-walk distance profile from `s`: a lower bound on the
weight of every walk from `s`, attained whenever it is finite. -/
def IsShortestDist (g : Graph) (s : ℕ) (d : ℕ → DistVal) : Prop :=
  (∀ v p, IsWalk g s v p → d v ≤ (walkWeight p : DistVal)) ∧
  (∀ v, d v ≠ ⊤ → ∃ p, IsWalk g s v p ∧ (walkWeight p : DistVal) = d v)

/-- Soundness of a distance map: every finite entry is the weight of an
actual walk from the source. -/
def DistSound (g : Graph) (s : ℕ) (d : ℕ → DistVal) : Prop :=
  ∀ v, d v ≠ ⊤ → ∃ p, IsWalk g s v p ∧ (walkWeight p : DistVal) = d v

namespace dijkstra_sssp

/-- The part of the Dijkstra loop invariant maintained even in the middle of
the inner `for` loop (where the freshly finalized node's outgoing edges are
only partly relaxed). -/
structure PInv (g : Graph) (s : ℕ) (st : DState) : Prop where
  hless : st.heap._less = tupleLess
  hheap : binary_heap.HeapInv tupleLess st.heap._items
  sound : ∀ v, st.dist v ≠ ⊤ →
    ∃ p, IsWalk g s v p ∧ (walkWeight p : DistVal) = st.dist v
  hsrc : st.dist s ≤ 0
  fopt : ∀ u, st.finalized u = true → ∀ p, IsWalk g s u p →
    st.dist u ≤ (walkWeight p : DistVal)
  hfresh : ∀ v, st.finalized v = false → st.dist v ≠ ⊤ →
    (st.dist v, v) ∈ st.heap._items
  hentries : ∀ it ∈ st.heap._items, it.2 ∈ g.nodes ∧ st.dist it.2 ≤ it.1 ∧ it.1 ≠ ⊤
  hfinal_nodes : ∀ v, st.finalized v = true → v ∈ g.nodes
  hcount : st.num_finalized = (g.nodes.filter (fun v => st.finalized v)).length

/-- The full loop invariant: additionally, every outgoing edge of a finalized
node has been relaxed. -/
structure Inv (g : Graph) (s : ℕ) (st : DState) extends PInv g s st : Prop where
  ftri : ∀ u, st.finalized u = true → ∀ e ∈ g.edges, e.1 = u →
    st.dist e.2.1 ≤ st.dist u + (e.2.2 : DistVal)

end dijkstra_sssp

/-! ## Theorems -/

@[simp]
theorem dictSet_same {β : Type} (f : ℕ → β) (k : ℕ) (v : β) : dictSet f k v k = v := by
  simp [dictSet]

theorem dictSet_other {β : Type} (f : ℕ → β) (k : ℕ) (v : β) {x : ℕ} (h : x ≠ k) :
    dictSet f k v x = f x := by
  simp [dictSet, h]

theorem mem_le_foldr_max : ∀ {l : List ℕ} {v : ℕ}, v ∈ l → v ≤ l.foldr max 0 := by
  intro l
  induction l with
  | nil => intro v hv; cases hv
  | cons a l ih =>
      intro v hv
      rcases List.mem_cons.mp hv with h | h
      · simp [h]
      · exact le_trans (ih h) (le_max_right _ _)

theorem Graph.freshNode_not_mem (g : Graph) : g.freshNode ∉ g.nodes := by
  intro hmem
  have h := mem_le_foldr_max hmem
  simp only [Graph.freshNode] at h
  omega

@[simp]
theorem walkWeight_nil : walkWeight ([] : List (ℕ × ℕ × ℚ)) = 0 := rfl

@[simp]
theorem walkWeight_cons (e : ℕ × ℕ × ℚ) (p : List (ℕ × ℕ × ℚ)) :
    walkWeight (e :: p) = e.2.2 + walkWeight p := by
  simp [walkWeight]

@[simp]
theorem walkWeight_append (p q : List (ℕ × ℕ × ℚ)) :
    walkWeight (p ++ q) = walkWeight p + walkWeight q := by
  simp [walkWeight]

/-! #### Elementary walk lemmas -/

theorem IsWalk.append {g : Graph} {s m t : ℕ} {p q : List (ℕ × ℕ × ℚ)}
    (hp : IsWalk g s m p) (hq : IsWalk g m t q) : IsWalk g s t (p ++ q) := by
  induction hp with
  | nil => simpa using hq
  | cons he _ ih => exact IsWalk.cons he (ih hq)

theorem isWalk_nil_iff {g : Graph} {s v : ℕ} : IsWalk g s v [] ↔ v = s := by
  constructor
  · intro h; cases h; rfl
  · rintro rfl; exact IsWalk.nil _

theorem isWalk_cons_iff {g : Graph} {s t : ℕ} {e : ℕ × ℕ × ℚ} {p : List (ℕ × ℕ × ℚ)} :
    IsWalk g s t (e :: p) ↔ e.1 = s ∧ e ∈ g.edges ∧ IsWalk g e.2.1 t p := by
  constructor
  · intro h; cases h with
    | cons he hp => exact ⟨rfl, he, hp⟩
  · rintro ⟨rfl, he, hp⟩
    exact IsWalk.cons (by simpa using he) hp

theorem isWalk_snoc_iff {g : Graph} {s v : ℕ} {e : ℕ × ℕ × ℚ} {p : List (ℕ × ℕ × ℚ)} :
    IsWalk g s v (p ++ [e]) ↔ IsWalk g s e.1 p ∧ e ∈ g.edges ∧ e.2.1 = v := by
  induction p generalizing s with
  | nil =>
      simp only [List.nil_append, isWalk_cons_iff, isWalk_nil_iff]
      constructor
      · rintro ⟨rfl, he, hp⟩; exact ⟨rfl, he, hp.symm⟩
      · rintro ⟨rfl, he, rfl⟩; exact ⟨rfl, he, rfl⟩
  | cons f p ih =>
      simp only [List.cons_append, isWalk_cons_iff, ih]
      tauto

theorem IsWalk.edges_subset {g : Graph} {s t : ℕ} {p : List (ℕ × ℕ × ℚ)}
    (hp : IsWalk g s t p) : ∀ e ∈ p, e ∈ g.edges := by
  induction hp with
  | nil => intro e he; cases he
  | cons he _ ih =>
      intro f hf
      rcases List.mem_cons.mp hf with h | h
      · exact h ▸ he
      · exact ih f h

theorem IsWalk.start_mem {g : Graph} (hwf : g.WF) {s t : ℕ} {p : List (ℕ × ℕ × ℚ)}
    (hp : IsWalk g s t p) (hne : p ≠ []) : s ∈ g.nodes := by
  cases hp with
  | nil => exact absurd rfl hne
  | cons he _ => exact (hwf.2 _ he).1

theorem IsWalk.end_mem {g : Graph} (hwf : g.WF) {s t : ℕ} {p : List (ℕ × ℕ × ℚ)}
    (hp : IsWalk g s t p) (hne : p ≠ []) : t ∈ g.nodes := by
  rcases List.eq_nil_or_concat p with rfl | ⟨q, e, rfl⟩
  · exact absurd rfl hne
  · rw [List.concat_eq_append] at hp
    obtain ⟨-, he, hv⟩ := isWalk_snoc_iff.mp hp
    exact hv ▸ (hwf.2 _ he).2

theorem IsShortestDist.unique {g : Graph} {s : ℕ} {d₁ d₂ : ℕ → DistVal}
    (h₁ : IsShortestDist g s d₁) (h₂ : IsShortestDist g s d₂) : ∀ v, d₁ v = d₂ v := by
  have key : ∀ dA dB : ℕ → DistVal, IsShortestDist g s dA → IsShortestDist g s dB →
      ∀ v, dA v ≤ dB v := by
    intro dA dB hA hB v
    by_cases htop : dB v = ⊤
    · simp [htop]
    · obtain ⟨p, hp, hw⟩ := hB.2 v htop
      exact hw ▸ hA.1 v p hp
  intro v
  exact le_antisymm (key d₁ d₂ h₁ h₂ v) (key d₂ d₁ h₂ h₁ v)

/-! #### Walk indexing, pigeonhole splitting, and cycle surgery -/

@[simp]
theorem nodeAt_zero (s : ℕ) (p : List (ℕ × ℕ × ℚ)) : nodeAt s p 0 = s := rfl

theorem nodeAt_cons_succ (s : ℕ) (e : ℕ × ℕ × ℚ) (p : List (ℕ × ℕ × ℚ)) (k : ℕ) :
    nodeAt s (e :: p) (k + 1) = nodeAt e.2.1 p k := by
  cases k with
  | zero => rfl
  | succ k => rfl

theorem isWalk_take {g : Graph} {s t : ℕ} {p : List (ℕ × ℕ × ℚ)} (hp : IsWalk g s t p) :
    ∀ i, i ≤ p.length → IsWalk g s (nodeAt s p i) (p.take i) := by
  induction hp with
  | nil v =>
      intro i hi
      cases Nat.le_zero.mp (by simpa using hi)
      exact IsWalk.nil v
  | cons he hp ih =>
      intro i hi
      cases i with
      | zero => exact IsWalk.nil _
      | succ i =>
          rw [List.take_succ_cons, nodeAt_cons_succ]
          exact IsWalk.cons he (ih i (by simpa using hi))

theorem isWalk_drop {g : Graph} {s t : ℕ} {p : List (ℕ × ℕ × ℚ)} (hp : IsWalk g s t p) :
    ∀ i, i ≤ p.length → IsWalk g (nodeAt s p i) t (p.drop i) := by
  induction hp with
  | nil v =>
      intro i hi
      cases Nat.le_zero.mp (by simpa using hi)
      exact IsWalk.nil v
  | cons he hp ih =>
      intro i hi
      cases i with
      | zero => exact IsWalk.cons he hp
      | succ i =>
          rw [List.drop_succ_cons, nodeAt_cons_succ]
          exact ih i (by simpa using hi)

theorem IsWalk.end_unique {g : Graph} {s a b : ℕ} {p : List (ℕ × ℕ × ℚ)}
    (h₁ : IsWalk g s a p) (h₂ : IsWalk g s b p) : a = b := by
  induction p generalizing s with
  | nil =>
      rw [isWalk_nil_iff] at h₁ h₂
      rw [h₁, h₂]
  | cons e p ih =>
      rw [isWalk_cons_iff] at h₁ h₂
      exact ih h₁.2.2 h₂.2.2

theorem nodeAt_eq_get {s : ℕ} {p : List (ℕ × ℕ × ℚ)} (i : ℕ)
    (hi : i < (s :: p.map (fun e => e.2.1)).length) :
    (s :: p.map (fun e => e.2.1)).get ⟨i, hi⟩ = nodeAt s p i := by
  cases i with
  | zero => rfl
  | succ k =>
      have hk : k < p.length := by simpa using hi
      simp only [List.get_cons_succ, nodeAt]
      rw [List.getD_eq_getElem _ _ hk]
      simp [List.get_eq_getElem]

/-- A walk from a node of a well-formed graph that uses at least `|V|` edges
revisits some node. -/
theorem exists_dup_of_long {g : Graph} (hwf : g.WF) {s t : ℕ} {p : List (ℕ × ℕ × ℚ)}
    (hs : s ∈ g.nodes) (hp : IsWalk g s t p) (hlen : g.nodes.length ≤ p.length) :
    ∃ i j, i < j ∧ j ≤ p.length ∧ nodeAt s p i = nodeAt s p j := by
  set ns : List ℕ := s :: p.map (fun e => e.2.1) with hns
  have hsub : ∀ x ∈ ns, x ∈ g.nodes := by
    intro x hx
    rcases List.mem_cons.mp hx with rfl | hx
    · exact hs
    · obtain ⟨e, he, rfl⟩ := List.mem_map.mp hx
      exact (hwf.2 e (hp.edges_subset e he)).2
  have hnslen : ns.length = p.length + 1 := by simp [hns]
  have hnotnodup : ¬ ns.Nodup := by
    intro hnd
    have h1 : ns.toFinset.card = ns.length := List.toFinset_card_of_nodup hnd
    have h2 : ns.toFinset ⊆ g.nodes.toFinset := by
      intro x hx
      rw [List.mem_toFinset] at hx ⊢
      exact hsub x hx
    have h3 : ns.toFinset.card ≤ g.nodes.toFinset.card := Finset.card_le_card h2
    have h4 : g.nodes.toFinset.card ≤ g.nodes.length := g.nodes.toFinset_card_le
    omega
  rw [List.nodup_iff_injective_get] at hnotnodup
  rw [Function.not_injective_iff] at hnotnodup
  obtain ⟨a, b, hget, hne⟩ := hnotnodup
  have ha2 := a.isLt
  have hb2 := b.isLt
  have hna := nodeAt_eq_get (s := s) (p := p) a.1 a.isLt
  have hnb := nodeAt_eq_get (s := s) (p := p) b.1 b.isLt
  rw [Fin.eta] at hna hnb
  rcases Nat.lt_trichotomy a.1 b.1 with h | h | h
  · refine ⟨a.1, b.1, h, by omega, ?_⟩
    rw [← hna, ← hnb, hget]
  · exact absurd (Fin.ext h) hne
  · refine ⟨b.1, a.1, h, by omega, ?_⟩
    rw [← hna, ← hnb, hget]

/-- Splitting a walk at a repeated node: a prefix, a nonempty closed middle
part, and a suffix. -/
theorem walk_split {g : Graph} {s t : ℕ} {p : List (ℕ × ℕ × ℚ)} (hp : IsWalk g s t p)
    {i j : ℕ} (hij : i < j) (hj : j ≤ p.length) (heq : nodeAt s p i = nodeAt s p j) :
    ∃ x A B C, p = A ++ B ++ C ∧ B ≠ [] ∧
      IsWalk g s x A ∧ IsWalk g x x B ∧ IsWalk g x t C := by
  have hi : i ≤ p.length := by omega
  set x := nodeAt s p i with hx
  set A := p.take i with hA
  set D := p.drop i with hD
  set B := D.take (j - i) with hB
  set C := D.drop (j - i) with hC
  have hDlen : D.length = p.length - i := by simp [hD]
  have hjiD : j - i ≤ D.length := by omega
  have hWA : IsWalk g s x A := isWalk_take hp i hi
  have hWD : IsWalk g x t D := isWalk_drop hp i hi
  have hWB : IsWalk g x (nodeAt x D (j - i)) B := isWalk_take hWD (j - i) hjiD
  have hWC : IsWalk g (nodeAt x D (j - i)) t C := isWalk_drop hWD (j - i) hjiD
  have hAB : A ++ B = p.take j := by
    rw [hA, hB, hD, ← List.take_add]
    congr 1
    omega
  have hWtakej : IsWalk g s (nodeAt s p j) (p.take j) := isWalk_take hp j hj
  have hWAB : IsWalk g s (nodeAt x D (j - i)) (p.take j) := hAB ▸ hWA.append hWB
  have hend : nodeAt x D (j - i) = nodeAt s p j := hWAB.end_unique hWtakej
  have hendx : nodeAt x D (j - i) = x := by rw [hend, ← heq]
  rw [hendx] at hWB hWC
  refine ⟨x, A, B, C, ?_, ?_, hWA, hWB, hWC⟩
  · rw [List.append_assoc, hB, hC, List.take_append_drop, hA, hD, List.take_append_drop]
  · have hBlen : B.length = j - i := by
      rw [hB, List.length_take]
      omega
    intro hBnil
    rw [hBnil] at hBlen
    simp at hBlen
    omega

/-- Cycle surgery: if no negative cycle is reachable from `s`, every walk from
`s` can be shortened to at most `|V| - 1` edges without increasing its weight. -/
theorem exists_short_walk {g : Graph} (hwf : g.WF) {s : ℕ} (hs : s ∈ g.nodes)
    (hnc : ¬ HasNegCycleFrom g s) :
    ∀ (n : ℕ) (p : List (ℕ × ℕ × ℚ)) (t : ℕ), p.length ≤ n → IsWalk g s t p →
      ∃ q, IsWalk g s t q ∧ q.length ≤ g.nodes.length - 1 ∧ walkWeight q ≤ walkWeight p := by
  intro n
  induction n with
  | zero =>
      intro p t hlen hp
      exact ⟨p, hp, by omega, le_refl _⟩
  | succ n ih =>
      intro p t hlen hp
      by_cases hshort : p.length ≤ g.nodes.length - 1
      · exact ⟨p, hp, hshort, le_refl _⟩
      · have hpos : 0 < g.nodes.length := List.length_pos_of_mem hs
        have hlong : g.nodes.length ≤ p.length := by omega
        obtain ⟨i, j, hij, hj, heq⟩ := exists_dup_of_long hwf hs hp hlong
        obtain ⟨x, A, B, C, hdecomp, hBne, hA, hB, hC⟩ := walk_split hp hij hj heq
        have hwB : 0 ≤ walkWeight B := by
          by_contra hneg
          exact hnc ⟨x, A, B, hA, hB, hBne, lt_of_not_le hneg⟩
        have hAC : IsWalk g s t (A ++ C) := hA.append hC
        have hACshort : (A ++ C).length ≤ n := by
          have hBpos : 0 < B.length := List.length_pos.mpr hBne
          rw [hdecomp] at hlen
          simp only [List.length_append] at hlen ⊢
          omega
        obtain ⟨q, hq, hqlen, hqw⟩ := ih (A ++ C) t hACshort hAC
        refine ⟨q, hq, hqlen, ?_⟩
        rw [hdecomp]
        calc walkWeight q ≤ walkWeight (A ++ C) := hqw
          _ ≤ walkWeight (A ++ B ++ C) := by
              simp only [walkWeight_append]
              linarith

/-- The triangle inequality along a walk. -/
theorem triangle_walk {g : Graph} {d : ℕ → DistVal}
    (htri : ∀ e ∈ g.edges, d e.2.1 ≤ d e.1 + (e.2.2 : DistVal)) {a b : ℕ}
    {p : List (ℕ × ℕ × ℚ)} (hp : IsWalk g a b p) :
    d b ≤ d a + (walkWeight p : DistVal) := by
  induction hp with
  | nil v => simp
  | cons he hp ih =>
      rename_i u v t w q
      calc d t ≤ d v + (walkWeight q : DistVal) := ih
        _ ≤ (d u + (w : DistVal)) + (walkWeight q : DistVal) :=
            add_le_add_right (htri _ he) _
        _ = d u + (walkWeight ((u, v, w) :: q) : DistVal) := by
            rw [walkWeight_cons]
            push_cast
            rw [add_assoc]

theorem HasNegCycleFrom.source_mem {g : Graph} (hwf : g.WF) {s : ℕ}
    (h : HasNegCycleFrom g s) : s ∈ g.nodes := by
  obtain ⟨u, p, c, hp, hc, hcne, -⟩ := h
  rcases List.eq_nil_or_concat p with rfl | ⟨q, e, rfl⟩
  · cases isWalk_nil_iff.mp hp
    exact hc.start_mem hwf hcne
  · exact hp.start_mem hwf (by simp)

theorem HasNegCycleFrom.hasNegCycle {g : Graph} {s : ℕ} (h : HasNegCycleFrom g s) :
    HasNegCycle g := by
  obtain ⟨u, p, c, hp, hc, hcne, hcw⟩ := h
  exact ⟨u, c, hc, hcne, hcw⟩

theorem HasNegCycle.hasNegCycleFrom {g : Graph} {s : ℕ} (hs : ∀ v ∈ g.nodes, ∃ p, IsWalk g s v p)
    (hwf : g.WF) (h : HasNegCycle g) : HasNegCycleFrom g s := by
  obtain ⟨u, c, hc, hcne, hcw⟩ := h
  obtain ⟨p, hp⟩ := hs u (hc.start_mem hwf hcne)
  exact ⟨u, p, c, hp, hc, hcne, hcw⟩

/-! #### Analysis of the Bellman-Ford relaxation loops -/

namespace bellman_ford_sssp

theorem relax_dist_le (dp : DistAndPred) (e : ℕ × ℕ × ℚ) (v : ℕ) :
    (relax dp e).dist v ≤ dp.dist v := by
  unfold relax
  split
  · rename_i hlt
    by_cases hv : v = e.2.1
    · subst hv; simpa using le_of_lt hlt
    · simp [dictSet_other _ _ _ hv]
  · exact le_refl _

theorem foldl_relax_dist_le (l : List (ℕ × ℕ × ℚ)) (dp : DistAndPred) (v : ℕ) :
    (l.foldl relax dp).dist v ≤ dp.dist v := by
  induction l generalizing dp with
  | nil => exact le_refl _
  | cons e l ih => exact le_trans (ih (relax dp e)) (relax_dist_le dp e v)

theorem relax_dist_bound (dp : DistAndPred) (e : ℕ × ℕ × ℚ) :
    (relax dp e).dist e.2.1 ≤ dp.dist e.1 + (e.2.2 : DistVal) := by
  unfold relax
  split
  · simp
  · rename_i hlt
    exact le_of_not_lt hlt

/-- After a full pass, each edge has been relaxed at least once against
distances no larger than the ones at the start of the pass. -/
theorem foldl_relax_mem_bound {l : List (ℕ × ℕ × ℚ)} {e : ℕ × ℕ × ℚ} (he : e ∈ l)
    (dp : DistAndPred) :
    (l.foldl relax dp).dist e.2.1 ≤ dp.dist e.1 + (e.2.2 : DistVal) := by
  induction l generalizing dp with
  | nil => cases he
  | cons f l ih =>
      rcases List.mem_cons.mp he with rfl | h
      · calc (List.foldl relax (relax dp e) l).dist e.2.1
              ≤ (relax dp e).dist e.2.1 := foldl_relax_dist_le l _ _
          _ ≤ dp.dist e.1 + (e.2.2 : DistVal) := relax_dist_bound dp e
      · calc (List.foldl relax (relax dp f) l).dist e.2.1
              ≤ (relax dp f).dist e.1 + (e.2.2 : DistVal) := ih h (relax dp f)
          _ ≤ dp.dist e.1 + (e.2.2 : DistVal) :=
              add_le_add_right (relax_dist_le dp f e.1) _

theorem relaxPass_dist_le (g : Graph) (dp : DistAndPred) (v : ℕ) :
    (relaxPass g dp).dist v ≤ dp.dist v :=
  foldl_relax_dist_le g.edges dp v

theorem relaxPass_mem_bound {g : Graph} {e : ℕ × ℕ × ℚ} (he : e ∈ g.edges)
    (dp : DistAndPred) :
    (relaxPass g dp).dist e.2.1 ≤ dp.dist e.1 + (e.2.2 : DistVal) :=
  foldl_relax_mem_bound he dp

theorem bfIter_succ (g : Graph) (s : ℕ) (k : ℕ) :
    bfIter g s (k + 1) = relaxPass g (bfIter g s k) := by
  unfold bfIter
  rw [Function.iterate_succ_apply']

theorem bfIter_dist_le_succ (g : Graph) (s : ℕ) (k : ℕ) (v : ℕ) :
    (bfIter g s (k + 1)).dist v ≤ (bfIter g s k).dist v := by
  rw [bfIter_succ]
  exact relaxPass_dist_le g _ v

theorem bfIter_dist_antitone (g : Graph) (s : ℕ) {j k : ℕ} (hjk : j ≤ k) (v : ℕ) :
    (bfIter g s k).dist v ≤ (bfIter g s j).dist v := by
  induction k with
  | zero => cases Nat.le_zero.mp hjk; exact le_refl _
  | succ k ih =>
      rcases Nat.lt_or_ge j (k + 1) with h | h
      · exact le_trans (bfIter_dist_le_succ g s k v) (ih (Nat.lt_succ_iff.mp h))
      · cases le_antisymm hjk h; exact le_refl _

theorem distSound_init (g : Graph) (s : ℕ) : DistSound g s (_init g s).dist := by
  intro v hv
  by_cases h : v = s
  · subst h
    refine ⟨[], IsWalk.nil v, ?_⟩
    simp [_init]
  · exfalso
    apply hv
    simp [_init, dictSet_other _ _ _ h]

theorem distSound_relax {g : Graph} {s : ℕ} {dp : DistAndPred}
    (hd : DistSound g s dp.dist) {e : ℕ × ℕ × ℚ} (he : e ∈ g.edges) :
    DistSound g s (relax dp e).dist := by
  intro v hv
  by_cases hlt : dp.dist e.1 + (e.2.2 : DistVal) < dp.dist e.2.1
  · simp only [relax, if_pos hlt] at hv ⊢
    by_cases hveq : v = e.2.1
    · subst hveq
      simp only [dictSet_same] at hv ⊢
      have hu : dp.dist e.1 ≠ ⊤ := by
        intro htop
        rw [htop] at hlt
        simp at hlt
      obtain ⟨p, hp, hw⟩ := hd e.1 hu
      refine ⟨p ++ [e], ?_, ?_⟩
      · exact isWalk_snoc_iff.mpr ⟨hp, he, rfl⟩
      · push_cast [walkWeight_append]
        rw [hw]
        simp
    · simp only [dictSet_other _ _ _ hveq] at hv ⊢
      exact hd v hv
  · simp only [relax, if_neg hlt] at hv ⊢
    exact hd v hv

theorem distSound_foldl {g : Graph} {s : ℕ} {l : List (ℕ × ℕ × ℚ)}
    (hl : ∀ e ∈ l, e ∈ g.edges) {dp : DistAndPred} (hd : DistSound g s dp.dist) :
    DistSound g s (l.foldl relax dp).dist := by
  induction l generalizing dp with
  | nil => exact hd
  | cons e l ih =>
      exact ih (fun f hf => hl f (List.mem_cons_of_mem _ hf))
        (distSound_relax hd (hl e (List.mem_cons_self _ _)))

theorem distSound_bfIter (g : Graph) (s : ℕ) (k : ℕ) :
    DistSound g s (bfIter g s k).dist := by
  induction k with
  | zero => exact distSound_init g s
  | succ k ih =>
      rw [bfIter_succ]
      exact distSound_foldl (fun e he => he) ih

/-- Upper bound: after `k` passes the distance of `v` is at most the weight of
any walk from the source to `v` that uses at most `k` edges. -/
theorem bfIter_dist_le_walk (g : Graph) (s : ℕ) :
    ∀ (k : ℕ) (v : ℕ) (p : List (ℕ × ℕ × ℚ)), IsWalk g s v p → p.length ≤ k →
      (bfIter g s k).dist v ≤ (walkWeight p : DistVal) := by
  intro k
  induction k with
  | zero =>
      intro v p hp hlen
      rw [Nat.le_zero, List.length_eq_zero] at hlen
      subst hlen
      cases isWalk_nil_iff.mp hp
      simp [bfIter, _init, walkWeight]
  | succ k ih =>
      intro v p hp hlen
      rcases List.eq_nil_or_concat p with rfl | ⟨q, e, rfl⟩
      · cases isWalk_nil_iff.mp hp
        calc (bfIter g s (k + 1)).dist s ≤ (bfIter g s 0).dist s :=
              bfIter_dist_antitone g s (Nat.zero_le _) s
          _ ≤ (walkWeight ([] : List (ℕ × ℕ × ℚ)) : DistVal) := by
              simp [bfIter, _init, walkWeight]
      · rw [List.concat_eq_append] at hp hlen ⊢
        obtain ⟨hq, he, rfl⟩ := isWalk_snoc_iff.mp hp
        have hlast : (bfIter g s (k + 1)).dist e.2.1 ≤
            (bfIter g s k).dist e.1 + (e.2.2 : DistVal) := by
          rw [bfIter_succ]
          exact relaxPass_mem_bound he _
        have hq' : (bfIter g s k).dist e.1 ≤ (walkWeight q : DistVal) := by
          apply ih e.1 q hq
          simp only [List.length_append, List.length_cons, List.length_nil] at hlen
          omega
        calc (bfIter g s (k + 1)).dist e.2.1
              ≤ (bfIter g s k).dist e.1 + (e.2.2 : DistVal) := hlast
          _ ≤ (walkWeight q : DistVal) + (e.2.2 : DistVal) := add_le_add_right hq' _
          _ = (walkWeight (q ++ [e]) : DistVal) := by
              push_cast [walkWeight_append]
              simp

/-! #### Outcomes of `bellman_ford_shortest_paths` -/

/-- Unfolded form of the solver: the final maps and the verification pass. -/
theorem bf_run_eq (g : Graph) (s : ℕ) :
    bellman_ford_shortest_paths g s =
      if g.edges.any (fun e =>
          decide ((bfIter g s (g.nodes.length - 1)).dist e.1 + (e.2.2 : DistVal) <
            (bfIter g s (g.nodes.length - 1)).dist e.2.1)) then
        .error .mk
      else
        .ok (bfIter g s (g.nodes.length - 1)) := rfl

theorem bf_error_iff_relax (g : Graph) (s : ℕ) :
    bellman_ford_shortest_paths g s = .error .mk ↔
      ∃ e ∈ g.edges, (bfIter g s (g.nodes.length - 1)).dist e.1 + (e.2.2 : DistVal) <
        (bfIter g s (g.nodes.length - 1)).dist e.2.1 := by
  rw [bf_run_eq]
  by_cases h : ∃ e ∈ g.edges, (bfIter g s (g.nodes.length - 1)).dist e.1 + (e.2.2 : DistVal) <
      (bfIter g s (g.nodes.length - 1)).dist e.2.1
  · rw [if_pos]
    · simpa using h
    · simpa [List.any_eq_true] using h
  · rw [if_neg]
    · simpa using h
    · simpa [List.any_eq_true] using h

theorem bf_ok_iff_no_relax (g : Graph) (s : ℕ) :
    bellman_ford_shortest_paths g s = .ok (bfIter g s (g.nodes.length - 1)) ↔
      ∀ e ∈ g.edges, (bfIter g s (g.nodes.length - 1)).dist e.2.1 ≤
        (bfIter g s (g.nodes.length - 1)).dist e.1 + (e.2.2 : DistVal) := by
  rw [bf_run_eq]
  by_cases h : ∃ e ∈ g.edges, (bfIter g s (g.nodes.length - 1)).dist e.1 + (e.2.2 : DistVal) <
      (bfIter g s (g.nodes.length - 1)).dist e.2.1
  · rw [if_pos (by simpa [List.any_eq_true] using h)]
    simp only [reduceCtorEq, false_iff]
    intro hall
    obtain ⟨e, he, hlt⟩ := h
    exact absurd (hall e he) (not_le.mpr hlt)
  · rw [if_neg (by simpa [List.any_eq_true] using h)]
    push_neg at h
    simp only [Except.ok.injEq, true_iff]
    intro e he
    exact h e he

theorem bf_error_or_ok (g : Graph) (s : ℕ) :
    bellman_ford_shortest_paths g s = .error .mk ∨
      bellman_ford_shortest_paths g s = .ok (bfIter g s (g.nodes.length - 1)) := by
  rw [bf_run_eq]
  split
  · exact Or.inl rfl
  · exact Or.inr rfl

/-! #### Behaviour from a source that is not a node -/

theorem relax_of_source_top {dp : DistAndPred} {e : ℕ × ℕ × ℚ}
    (h : dp.dist e.1 = ⊤) : relax dp e = dp := by
  unfold relax
  rw [h]
  simp

theorem foldl_relax_of_top {l : List (ℕ × ℕ × ℚ)} {dp : DistAndPred}
    (h : ∀ e ∈ l, dp.dist e.1 = ⊤) : l.foldl relax dp = dp := by
  induction l with
  | nil => rfl
  | cons e l ih =>
      rw [List.foldl_cons, relax_of_source_top (h e (List.mem_cons_self _ _))]
      exact ih (fun f hf => h f (List.mem_cons_of_mem _ hf))

theorem init_dist_top_of_ne {g : Graph} {s v : ℕ} (h : v ≠ s) :
    (_init g s).dist v = ⊤ := by
  simp [_init, dictSet_other _ _ _ h]

/-- A source outside the graph never relaxes anything: every edge source is a
node, hence distinct from the source, hence at distance infinity. -/
theorem bfIter_of_not_mem {g : Graph} (hwf : g.WF) {s : ℕ} (hs : s ∉ g.nodes) (k : ℕ) :
    bfIter g s k = _init g s := by
  induction k with
  | zero => rfl
  | succ k ih =>
      rw [bfIter_succ, ih]
      unfold relaxPass
      apply foldl_relax_of_top
      intro e he
      apply init_dist_top_of_ne
      intro hcontra
      exact hs (hcontra ▸ (hwf.2 e he).1)

theorem bf_ok_of_not_mem {g : Graph} (hwf : g.WF) {s : ℕ} (hs : s ∉ g.nodes) :
    bellman_ford_shortest_paths g s = .ok (_init g s) := by
  have hiter := bfIter_of_not_mem hwf hs (g.nodes.length - 1)
  rw [← hiter]
  rw [bf_ok_iff_no_relax]
  intro e he
  rw [hiter]
  have htop : (_init g s).dist e.1 = ⊤ := by
    apply init_dist_top_of_ne
    intro hcontra
    exact hs (hcontra ▸ (hwf.2 e he).1)
  rw [htop]
  simp

/-! #### The negative-cycle characterization of the verification pass -/

/-- `bellman_ford_shortest_paths` raises `NegativeCycleError` exactly when the
graph has a negative cycle reachable from the source. -/
theorem bf_error_iff_negcycle {g : Graph} (hwf : g.WF) (s : ℕ) :
    bellman_ford_shortest_paths g s = .error .mk ↔ HasNegCycleFrom g s := by
  constructor
  · -- error → a reachable negative cycle exists
    intro herr
    by_contra hnc
    by_cases hs : s ∈ g.nodes
    · obtain ⟨e, he, hlt⟩ := (bf_error_iff_relax g s).mp herr
      have hfin : (bfIter g s (g.nodes.length - 1)).dist e.1 ≠ ⊤ := by
        intro htop
        rw [htop] at hlt
        simp at hlt
      obtain ⟨p, hp, hw⟩ := distSound_bfIter g s (g.nodes.length - 1) e.1 hfin
      have hwalk : IsWalk g s e.2.1 (p ++ [e]) := isWalk_snoc_iff.mpr ⟨hp, he, rfl⟩
      obtain ⟨q, hq, hqlen, hqw⟩ :=
        exists_short_walk hwf hs hnc (p ++ [e]).length (p ++ [e]) e.2.1 (le_refl _) hwalk
      have hub : (bfIter g s (g.nodes.length - 1)).dist e.2.1 ≤ (walkWeight q : DistVal) :=
        bfIter_dist_le_walk g s _ _ q hq hqlen
      have hcomb : (walkWeight q : DistVal) ≤
          (bfIter g s (g.nodes.length - 1)).dist e.1 + (e.2.2 : DistVal) := by
        calc (walkWeight q : DistVal) ≤ (walkWeight (p ++ [e]) : DistVal) := by
              exact_mod_cast hqw
          _ = (walkWeight p : DistVal) + (e.2.2 : DistVal) := by
              push_cast [walkWeight_append]
              simp
          _ = (bfIter g s (g.nodes.length - 1)).dist e.1 + (e.2.2 : DistVal) := by
              rw [hw]
      exact absurd hlt (not_lt.mpr (le_trans hub hcomb))
    · rw [bf_ok_of_not_mem hwf hs] at herr
      cases herr
  · -- a reachable negative cycle forces the verification pass to fire
    intro hcyc
    rcases bf_error_or_ok g s with h | h
    · exact h
    · exfalso
      obtain ⟨u, p, c, hp, hc, hcne, hcw⟩ := hcyc
      have htri : ∀ e ∈ g.edges, (bfIter g s (g.nodes.length - 1)).dist e.2.1 ≤
          (bfIter g s (g.nodes.length - 1)).dist e.1 + (e.2.2 : DistVal) :=
        (bf_ok_iff_no_relax g s).mp h
      have hs0 : (bfIter g s (g.nodes.length - 1)).dist s ≤ (0 : DistVal) := by
        have := bfIter_dist_le_walk g s (g.nodes.length - 1) s [] (IsWalk.nil s)
          (by simp)
        simpa [walkWeight] using this
      have hu : (bfIter g s (g.nodes.length - 1)).dist u ≤
          (0 : DistVal) + (walkWeight p : DistVal) := by
        calc (bfIter g s (g.nodes.length - 1)).dist u
            ≤ (bfIter g s (g.nodes.length - 1)).dist s + (walkWeight p : DistVal) :=
              triangle_walk htri hp
          _ ≤ (0 : DistVal) + (walkWeight p : DistVal) := add_le_add_right hs0 _
      have hufin : (bfIter g s (g.nodes.length - 1)).dist u ≠ ⊤ := by
        intro htop
        rw [htop] at hu
        have : ((0 : DistVal) + (walkWeight p : DistVal)) ≠ ⊤ := by
          rw [zero_add]
          exact WithTop.coe_ne_top
        exact this (top_le_iff.mp hu)
      obtain ⟨du, hdu⟩ := WithTop.ne_top_iff_exists.mp hufin
      have hcycle_ineq : (bfIter g s (g.nodes.length - 1)).dist u ≤
          (bfIter g s (g.nodes.length - 1)).dist u + (walkWeight c : DistVal) :=
        triangle_walk htri hc
      rw [← hdu] at hcycle_ineq
      have : (du : DistVal) + (walkWeight c : DistVal) = ((du + walkWeight c : ℚ) : DistVal) := by
        norm_cast
      rw [this] at hcycle_ineq
      have hq : du ≤ du + walkWeight c := WithTop.coe_le_coe.mp hcycle_ineq
      linarith

end bellman_ford_sssp

/-! #### The supersource construction -/

theorem add_supersource_wf {g : Graph} (hwf : g.WF) : (add_supersource g).2.WF := by
  constructor
  · simp only [add_supersource]
    rw [List.nodup_append]
    exact ⟨hwf.1, List.nodup_singleton _, by
      intro a ha hb
      simp only [List.mem_singleton] at hb
      subst hb
      exact g.freshNode_not_mem ha⟩
  · intro e he
    simp only [add_supersource, List.mem_append] at he
    rcases he with he | he
    · obtain ⟨h1, h2⟩ := hwf.2 e he
      exact ⟨List.mem_append_left _ h1, List.mem_append_left _ h2⟩
    · obtain ⟨v, hv, rfl⟩ := List.mem_map.mp he
      exact ⟨List.mem_append_right _ (List.mem_singleton_self _),
        List.mem_append_left _ hv⟩

theorem add_supersource_no_target_ss {g : Graph} (hwf : g.WF) :
    ∀ e ∈ (add_supersource g).2.edges, e.2.1 ≠ (add_supersource g).1 := by
  intro e he
  simp only [add_supersource, List.mem_append] at he ⊢
  rcases he with he | he
  · intro hcontra
    exact g.freshNode_not_mem (hcontra ▸ (hwf.2 e he).2)
  · obtain ⟨v, hv, rfl⟩ := List.mem_map.mp he
    intro hcontra
    exact g.freshNode_not_mem (hcontra ▸ hv)

theorem isWalk_aug {g : Graph} {a b : ℕ} {p : List (ℕ × ℕ × ℚ)}
    (hp : IsWalk g a b p) : IsWalk (add_supersource g).2 a b p := by
  induction hp with
  | nil v => exact IsWalk.nil v
  | cons he _ ih =>
      exact IsWalk.cons (by simp only [add_supersource, List.mem_append]; exact Or.inl he) ih

theorem isWalk_of_aug_avoid_ss {g : Graph} (hwf : g.WF) {a b : ℕ}
    {p : List (ℕ × ℕ × ℚ)} (hp : IsWalk (add_supersource g).2 a b p)
    (ha : a ≠ (add_supersource g).1) : IsWalk g a b p := by
  induction hp with
  | nil v => exact IsWalk.nil v
  | cons he hp ih =>
      rename_i u v t w q
      have hu : (u, v, w) ∈ g.edges := by
        simp only [add_supersource, List.mem_append] at he
        rcases he with he | he
        · exact he
        · obtain ⟨x, hx, hxeq⟩ := List.mem_map.mp he
          exfalso
          apply ha
          simp only [add_supersource]
          have : u = g.freshNode := (congrArg Prod.fst hxeq).symm
          exact this
      have hv : v ≠ (add_supersource g).1 :=
        add_supersource_no_target_ss hwf (u, v, w) (by
          simp only [add_supersource, List.mem_append]; exact Or.inl hu)
      exact IsWalk.cons hu (ih hv)

theorem hasNegCycleFrom_aug_iff {g : Graph} (hwf : g.WF) :
    HasNegCycleFrom (add_supersource g).2 (add_supersource g).1 ↔ HasNegCycle g := by
  constructor
  · rintro ⟨u, p, c, hp, hc, hcne, hw⟩
    have hune : u ≠ (add_supersource g).1 := by
      intro hcontra
      subst hcontra
      rcases List.eq_nil_or_concat c with rfl | ⟨q, e, rfl⟩
      · exact hcne rfl
      · rw [List.concat_eq_append] at hc
        obtain ⟨-, he, hv⟩ := isWalk_snoc_iff.mp hc
        exact add_supersource_no_target_ss hwf e he hv
    exact ⟨u, c, isWalk_of_aug_avoid_ss hwf hc hune, hcne, hw⟩
  · rintro ⟨u, c, hc, hcne, hw⟩
    have hu : u ∈ g.nodes := hc.start_mem hwf hcne
    have hedge : ((add_supersource g).1, u, (0 : ℚ)) ∈ (add_supersource g).2.edges := by
      simp only [add_supersource, List.mem_append]
      exact Or.inr (List.mem_map.mpr ⟨u, hu, rfl⟩)
    exact ⟨u, [((add_supersource g).1, u, 0)], c,
      IsWalk.cons hedge (IsWalk.nil u), isWalk_aug hc, hcne, hw⟩

open bellman_ford_sssp in
theorem has_negative_cycle_iff {g : Graph} (hwf : g.WF) :
    has_negative_cycle g = true ↔ HasNegCycle g := by
  rw [← hasNegCycleFrom_aug_iff hwf,
    ← bf_error_iff_negcycle (add_supersource_wf hwf) (add_supersource g).1]
  unfold has_negative_cycle
  rcases bf_error_or_ok (add_supersource g).2 (add_supersource g).1 with h | h <;>
    simp [Graph.copy, h]

open bellman_ford_sssp in
/-- Every original node is one zero-weight step from the supersource, so its
Bellman-Ford distance from the supersource is finite. -/
theorem aug_dist_finite {g : Graph} {v : ℕ} (hv : v ∈ g.nodes) :
    (bfIter (add_supersource g).2 (add_supersource g).1
      ((add_supersource g).2.nodes.length - 1)).dist v ≠ ⊤ := by
  have hlen : (add_supersource g).2.nodes.length = g.nodes.length + 1 := by
    simp [add_supersource]
  have hedge : ((add_supersource g).1, v, (0 : ℚ)) ∈ (add_supersource g).2.edges := by
    simp only [add_supersource, List.mem_append]
    exact Or.inr (List.mem_map.mpr ⟨v, hv, rfl⟩)
  have hwalk : IsWalk (add_supersource g).2 (add_supersource g).1 v
      [((add_supersource g).1, v, 0)] :=
    IsWalk.cons hedge (IsWalk.nil v)
  have hpos : 0 < g.nodes.length := List.length_pos_of_mem hv
  have hub := bfIter_dist_le_walk (add_supersource g).2 (add_supersource g).1
    ((add_supersource g).2.nodes.length - 1) v _ hwalk (by simp [hlen]; omega)
  intro htop
  rw [htop] at hub
  exact WithTop.coe_ne_top (top_le_iff.mp hub)

theorem remove_add_supersource {g : Graph} (hwf : g.WF) :
    johnsons_apsp.remove_node (add_supersource g).2 (add_supersource g).1 = g := by
  unfold johnsons_apsp.remove_node
  have hnodes : ((add_supersource g).2.nodes.filter
      (fun x => decide (x ≠ (add_supersource g).1))) = g.nodes := by
    simp only [add_supersource]
    rw [List.filter_append]
    rw [List.filter_eq_self.mpr, List.filter_eq_nil_iff.mpr, List.append_nil]
    · intro a ha
      simp only [List.mem_singleton] at ha
      simp [ha]
    · intro a ha
      simp only [decide_not, Bool.not_eq_true', decide_eq_false_iff_not, not_not]
      intro hcontra
      exact g.freshNode_not_mem (hcontra ▸ ha)
  have hedges : ((add_supersource g).2.edges.filter
      (fun e => decide (e.1 ≠ (add_supersource g).1) &&
        decide (e.2.1 ≠ (add_supersource g).1))) = g.edges := by
    simp only [add_supersource]
    rw [List.filter_append]
    rw [List.filter_eq_self.mpr, List.filter_eq_nil_iff.mpr, List.append_nil]
    · intro e he
      obtain ⟨v, hv, rfl⟩ := List.mem_map.mp he
      simp
    · intro e he
      obtain ⟨h1, h2⟩ := hwf.2 e he
      simp only [Bool.and_eq_true, decide_eq_true_eq]
      constructor
      · intro hcontra
        exact g.freshNode_not_mem (hcontra ▸ h1)
      · intro hcontra
        exact g.freshNode_not_mem (hcontra ▸ h2)
  rw [hnodes, hedges]

/-! ### Verification of the binary heap -/

namespace binary_heap

theorem lessOk_refl {α : Type} {less : α → α → Bool} (hok : LessOk less) (a : α) :
    less a a = false := by
  cases h : less a a with
  | false => rfl
  | true => exact absurd (hok.1 a a h) (by simp [h])

theorem lessOk_ltb {α : Type} [LinearOrder α] : LessOk (ltb (α := α)) := by
  constructor
  · intro a b hab
    simp only [ltb, decide_eq_true_eq] at hab
    simpa [ltb] using le_of_lt hab
  · intro a b c hba hcb
    simp only [ltb, decide_eq_false_iff_not, not_lt] at hba hcb ⊢
    exact le_trans hba hcb

theorem getD_set_self {α : Type} [Inhabited α] {l : List α} {i : ℕ} (hi : i < l.length)
    (a : α) : (l.set i a).getD i default = a := by
  rw [List.getD_eq_getElem _ _ (by simpa using hi)]
  simp

theorem getD_set_other {α : Type} [Inhabited α] {l : List α} {i j : ℕ} (hij : i ≠ j)
    (a : α) : (l.set i a).getD j default = l.getD j default := by
  by_cases hj : j < l.length
  · rw [List.getD_eq_getElem _ _ (by simpa using hj), List.getD_eq_getElem _ _ hj]
    exact List.getElem_set_ne hij _
  · rw [List.getD_eq_default _ _ (by simpa using not_lt.mp hj),
      List.getD_eq_default _ _ (not_lt.mp hj)]

theorem _swap_getD_fst {α : Type} [Inhabited α] {l : List α} {a b : ℕ}
    (ha : a < l.length) (hb : b < l.length) :
    (_swap l a b).getD a default = l.getD b default := by
  unfold _swap
  by_cases hab : a = b
  · subst hab
    rw [getD_set_self (by simpa using ha)]
  · rw [getD_set_other (fun h => hab h.symm), getD_set_self ha]

theorem _swap_getD_snd {α : Type} [Inhabited α] {l : List α} {a b : ℕ}
    (hb : b < l.length) :
    (_swap l a b).getD b default = l.getD a default := by
  unfold _swap
  rw [getD_set_self (by simpa using hb)]

theorem _swap_getD_other {α : Type} [Inhabited α] {l : List α} {a b j : ℕ}
    (hja : j ≠ a) (hjb : j ≠ b) :
    (_swap l a b).getD j default = l.getD j default := by
  unfold _swap
  rw [getD_set_other (Ne.symm hjb), getD_set_other (Ne.symm hja)]

theorem _shift_up_length {α : Type} [Inhabited α] (less : α → α → Bool)
    (l : List α) (index : ℕ) : (_shift_up less l index).length = l.length := by
  induction l, index using _shift_up.induct less with
  | case1 l index hcond ih =>
      unfold _shift_up
      rw [if_pos hcond, ih, _swap_length]
  | case2 l index hcond =>
      unfold _shift_up
      rw [if_neg hcond]

theorem _min_child_none {α : Type} [Inhabited α] {less : α → α → Bool} {l : List α}
    {j : ℕ} (hmc : _min_child less l j = none) : l.length ≤ 2 * j + 1 := by
  unfold _min_child at hmc
  split_ifs at hmc
  omega

theorem _min_child_spec {α : Type} [Inhabited α] {less : α → α → Bool}
    (hok : LessOk less) {l : List α} {j mc : ℕ}
    (hmc : _min_child less l j = some mc) :
    mc < l.length ∧ (mc = 2 * j + 1 ∨ mc = 2 * j + 2) ∧
      ∀ c, 0 < c → c < l.length → (c - 1) / 2 = j →
        less (l.getD c default) (l.getD mc default) = false := by
  unfold _min_child at hmc
  split_ifs at hmc with h1 h2 h3 <;> simp only [Option.some.injEq] at hmc <;> subst hmc
  · refine ⟨by omega, by omega, ?_⟩
    intro c hc hclen hcpar
    have : c = 2 * j + 1 ∨ c = 2 * j + 2 := by omega
    rcases this with rfl | rfl
    · exact hok.1 _ _ h2
    · exact lessOk_refl hok _
  · refine ⟨by omega, by omega, ?_⟩
    intro c hc hclen hcpar
    have : c = 2 * j + 1 ∨ c = 2 * j + 2 := by omega
    rcases this with rfl | rfl
    · exact lessOk_refl hok _
    · exact Bool.not_eq_true _ ▸ (by simpa using h2)
  · refine ⟨by omega, by omega, ?_⟩
    intro c hc hclen hcpar
    have : c = 2 * j + 1 := by omega
    subst this
    exact lessOk_refl hok _

/-- `_shift_up` restores the heap invariant: if all parent-child pairs hold
except possibly the one between `j` and its parent, and additionally `j`'s
children (if any) dominate `j`'s parent, then the sifted list is a heap. -/
theorem _shift_up_inv {α : Type} [Inhabited α] {less : α → α → Bool}
    (hok : LessOk less) :
    ∀ (l : List α) (j : ℕ), j < l.length →
      (∀ k, 0 < k → k < l.length → k ≠ j →
        less (l.getD k default) (l.getD ((k - 1) / 2) default) = false) →
      (0 < j → ∀ c, 0 < c → c < l.length → (c - 1) / 2 = j →
        less (l.getD c default) (l.getD ((j - 1) / 2) default) = false) →
      HeapInv less (_shift_up less l j) := by
  intro l j
  induction l, j using _shift_up.induct less with
  | case1 l j hcond ih =>
      intro hjlen hpairs hgrand
      obtain ⟨hj0, hswap⟩ := hcond
      rw [Bool.not_eq_true] at hswap
      unfold _shift_up
      rw [if_pos ⟨hj0, by rw [hswap]; simp⟩]
      have hpj : (j - 1) / 2 < j := by omega
      have hplen : (j - 1) / 2 < l.length := lt_trans hpj hjlen
      apply ih
      · rw [_swap_length]
        exact hplen
      · -- all pairs except the new hole's own pair
        intro k hk hklen hkp
        rw [_swap_length] at hklen
        by_cases hkj : k = j
        · subst hkj
          rw [_swap_getD_fst hjlen hplen, _swap_getD_snd hplen]
          exact hswap
        · by_cases hparj : (k - 1) / 2 = j
          · have hkbig : 2 * j + 1 ≤ k := by omega
            rw [_swap_getD_other hkj (by omega), hparj, _swap_getD_fst hjlen hplen]
            have := hgrand hj0 k hk hklen hparj
            exact this
          · by_cases hpark : (k - 1) / 2 = (j - 1) / 2
            · rw [_swap_getD_other hkj hkp, hpark, _swap_getD_snd hplen]
              have hold := hpairs k hk hklen hkj
              rw [hpark] at hold
              exact hok.2 _ _ _ hswap hold
            · rw [_swap_getD_other hkj hkp, _swap_getD_other hparj hpark]
              exact hpairs k hk hklen hkj
      · -- the grandparent condition at the new hole
        intro hp0 c hc hclen hparc
        rw [_swap_length] at hclen
        have hpp : ((j - 1) / 2 - 1) / 2 < (j - 1) / 2 := by omega
        have hppne_j : ((j - 1) / 2 - 1) / 2 ≠ j := by omega
        have hppne_p : ((j - 1) / 2 - 1) / 2 ≠ (j - 1) / 2 := by omega
        have holdp := hpairs ((j - 1) / 2) hp0 hplen (by omega)
        by_cases hcj : c = j
        · subst hcj
          rw [_swap_getD_fst hjlen hplen, _swap_getD_other hppne_j hppne_p]
          exact holdp
        · have hcne_p : c ≠ (j - 1) / 2 := by omega
          rw [_swap_getD_other hcj hcne_p, _swap_getD_other hppne_j hppne_p]
          have holdc := hpairs c hc hclen hcj
          rw [hparc] at holdc
          exact hok.2 _ _ _ holdp holdc
  | case2 l j hcond =>
      intro hjlen hpairs hgrand
      unfold _shift_up
      rw [if_neg hcond]
      intro k hk hklen
      by_cases hkj : k = j
      · subst hkj
        push_neg at hcond
        exact hok.1 _ _ (hcond hk)
      · exact hpairs k hk hklen hkj

/-- `_shift_down` restores the heap invariant: if all parent-child pairs hold
except possibly those whose parent is `j`, and additionally `j`'s children
dominate `j`'s parent, then the sifted list is a heap. -/
theorem _shift_down_inv {α : Type} [Inhabited α] {less : α → α → Bool}
    (hok : LessOk less) :
    ∀ (l : List α) (j : ℕ),
      (∀ k, 0 < k → k < l.length → (k - 1) / 2 ≠ j →
        less (l.getD k default) (l.getD ((k - 1) / 2) default) = false) →
      (0 < j → ∀ c, 0 < c → c < l.length → (c - 1) / 2 = j →
        less (l.getD c default) (l.getD ((j - 1) / 2) default) = false) →
      HeapInv less (_shift_down less l j) := by
  intro l j
  induction l, j using _shift_down.induct less with
  | case1 l j hmc =>
      intro hpairs hgrand
      unfold _shift_down
      split
      · intro k hk hklen
        by_cases hpar : (k - 1) / 2 = j
        · exfalso
          have := _min_child_none hmc
          omega
        · exact hpairs k hk hklen hpar
      · rename_i mc heq
        rw [hmc] at heq
        exact Option.noConfusion heq
  | case2 l j mc hmc hlt ih =>
      intro hpairs hgrand
      obtain ⟨hmclen, hmcval, hmcmin⟩ := _min_child_spec hok hmc
      have hjlen : j < l.length := by omega
      have hjmc : j ≠ mc := by omega
      unfold _shift_down
      split
      · rename_i heq
        rw [hmc] at heq
        exact Option.noConfusion heq
      · rename_i mc' heq
        rw [hmc] at heq
        cases Option.some.inj heq
        rw [if_pos hlt]
        apply ih
        · intro k hk hklen hkpar
          rw [_swap_length] at hklen
          by_cases hkmc : k = mc
          · subst hkmc
            have hparmc : (k - 1) / 2 = j := by omega
            rw [hparmc, _swap_getD_snd hmclen, _swap_getD_fst hjlen hmclen]
            exact hok.1 _ _ hlt
          · by_cases hkj : k = j
            · subst hkj
              have hplen : (k - 1) / 2 < l.length := by omega
              have hpne_j : (k - 1) / 2 ≠ k := by omega
              have hpne_mc : (k - 1) / 2 ≠ mc := by omega
              rw [_swap_getD_fst hjlen hmclen, _swap_getD_other hpne_j hpne_mc]
              exact hgrand hk mc (by omega) hmclen (by omega)
            · by_cases hparj : (k - 1) / 2 = j
              · rw [_swap_getD_other hkj hkmc, hparj, _swap_getD_fst hjlen hmclen]
                exact hmcmin k hk hklen hparj
              · rw [_swap_getD_other hkj hkmc, _swap_getD_other hparj hkpar]
                exact hpairs k hk hklen hparj
        · intro hmc0 c hc hclen hparc
          rw [_swap_length] at hclen
          have hparmc : (mc - 1) / 2 = j := by omega
          rw [hparmc]
          have hcne_j : c ≠ j := by omega
          have hcne_mc : c ≠ mc := by omega
          rw [_swap_getD_other hcne_j hcne_mc, _swap_getD_fst hjlen hmclen]
          have hold := hpairs c hc hclen (by omega)
          rw [hparc] at hold
          exact hold
  | case3 l j mc hmc hlt =>
      intro hpairs hgrand
      obtain ⟨hmclen, hmcval, hmcmin⟩ := _min_child_spec hok hmc
      unfold _shift_down
      split
      · rename_i heq
        rw [hmc] at heq
        exact Option.noConfusion heq
      · rename_i mc' heq
        rw [hmc] at heq
        cases Option.some.inj heq
        rw [if_neg hlt]
        intro k hk hklen
        by_cases hpar : (k - 1) / 2 = j
        · rw [Bool.not_eq_true] at hlt
          by_cases hkmc : k = mc
          · subst hkmc
            rw [hpar]
            exact hlt
          · have hsib := hmcmin k hk hklen hpar
            rw [hpar]
            exact hok.2 _ _ _ hlt hsib
        · exact hpairs k hk hklen hpar

theorem heapInv_root_min {α : Type} [Inhabited α] {less : α → α → Bool}
    (hok : LessOk less) {l : List α} (hinv : HeapInv less l) :
    ∀ j, j < l.length → less (l.getD j default) (l.getD 0 default) = false := by
  intro j
  induction j using Nat.strong_induction_on with
  | _ j ih =>
      intro hj
      cases Nat.eq_zero_or_pos j with
      | inl h =>
          subst h
          exact lessOk_refl hok _
      | inr h =>
          have hp : (j - 1) / 2 < j := by omega
          exact hok.2 _ _ _ (ih _ hp (by omega)) (hinv j h hj)

theorem getD_append_left {α : Type} [Inhabited α] {l : List α} (x : α) {k : ℕ}
    (hk : k < l.length) : (l ++ [x]).getD k default = l.getD k default := by
  rw [List.getD_eq_getElem _ _ (by simp; omega), List.getD_eq_getElem _ _ hk]
  exact List.getElem_append_left _

theorem getD_dropLast {α : Type} [Inhabited α] {l : List α} {k : ℕ}
    (hk : k < l.length - 1) : l.dropLast.getD k default = l.getD k default := by
  rw [List.getD_eq_getElem _ _ (by simp; omega), List.getD_eq_getElem _ _ (by omega)]
  exact List.getElem_dropLast _ _ _

theorem insert_less {α : Type} [Inhabited α] (h : BinaryHeap α) (x : α) :
    (h.insert x)._less = h._less := rfl

theorem insert_heapInv {α : Type} [Inhabited α] {h : BinaryHeap α}
    (hok : LessOk h._less) (hinv : HeapInv h._less h._items) (x : α) :
    HeapInv h._less (h.insert x)._items := by
  unfold BinaryHeap.insert
  dsimp only
  have hlen : (h._items ++ [x]).length - 1 = h._items.length := by simp
  rw [hlen]
  apply _shift_up_inv hok
  · simp
  · intro k hk hklen hkj
    simp only [List.length_append, List.length_cons, List.length_nil] at hklen
    have hklt : k < h._items.length := by omega
    have hplt : (k - 1) / 2 < h._items.length := by omega
    rw [getD_append_left _ hklt, getD_append_left _ hplt]
    exact hinv k hk hklt
  · intro hj0 c hc hclen hcpar
    exfalso
    simp only [List.length_append, List.length_cons, List.length_nil] at hclen
    omega

theorem pop_ok_ne_nil {α : Type} [Inhabited α] {h : BinaryHeap α} {x : α}
    {h' : BinaryHeap α} (hp : h.pop = .ok (x, h')) : h._items ≠ [] := by
  intro hnil
  unfold BinaryHeap.pop at hp
  rw [if_pos (by simp [hnil])] at hp
  cases hp

/-- A successful `pop` on a heap satisfying the invariant returns the root,
which is a minimal item, and leaves a heap satisfying the invariant. -/
theorem pop_spec {α : Type} [Inhabited α] {h : BinaryHeap α}
    (hok : LessOk h._less) (hinv : HeapInv h._less h._items) (hne : h._items ≠ []) :
    ∃ x h', h.pop = .ok (x, h') ∧ x = h._items.getD 0 default ∧
      x ∈ h._items ∧ (∀ y ∈ h._items, h._less y x = false) ∧
      h'._less = h._less ∧ HeapInv h._less h'._items := by
  have hn : 0 < h._items.length := List.length_pos.mpr hne
  unfold BinaryHeap.pop
  rw [if_neg (by omega)]
  refine ⟨_, _, rfl, ?_, ?_, ?_, rfl, ?_⟩
  · -- the returned item is the old root
    rw [_swap_length, _swap_getD_snd (by omega)]
  · rw [_swap_length, _swap_getD_snd (by omega)]
    rw [List.getD_eq_getElem _ _ hn]
    exact List.getElem_mem _
  · intro y hy
    rw [_swap_length, _swap_getD_snd (by omega)]
    obtain ⟨j, hj, rfl⟩ := List.mem_iff_getElem.mp hy
    have := heapInv_root_min hok hinv j hj
    rw [List.getD_eq_getElem _ _ hj] at this
    exact this
  · -- heap invariant of the shrunken, sifted list
    dsimp only
    apply _shift_down_inv hok
    · intro k hk hklen hkpar
      have hk3 : 3 ≤ k := by omega
      simp only [List.length_dropLast, _swap_length] at hklen
      have hklt : k < h._items.length - 1 := hklen
      have hplt : (k - 1) / 2 < h._items.length - 1 := by omega
      rw [getD_dropLast (by rw [_swap_length]; omega),
        getD_dropLast (by rw [_swap_length]; omega)]
      rw [_swap_getD_other (by omega) (by omega),
        _swap_getD_other (by omega) (by omega)]
      exact hinv k hk (by omega)
    · intro h0
      exact absurd h0 (by omega)

/-! #### Multiset content of the heap operations -/

theorem count_set {α : Type} [Inhabited α] [DecidableEq α] :
    ∀ (l : List α) (i : ℕ), i < l.length → ∀ (x c : α),
      (l.set i x).count c + (if c = l.getD i default then 1 else 0) =
        l.count c + (if c = x then 1 else 0) := by
  intro l
  induction l with
  | nil => intro i hi; simp at hi
  | cons a t ih =>
      intro i hi x c
      cases i with
      | zero =>
          rcases eq_or_ne c x with rfl | hcx <;> rcases eq_or_ne c a with rfl | hca <;>
            simp_all [List.count_cons, eq_comm]
      | succ i =>
          simp only [List.set_cons_succ, List.count_cons, List.getD_cons_succ,
            beq_iff_eq]
          have hit : i < t.length := by simpa using hi
          have hx := ih i hit x c
          split_ifs at hx ⊢ <;> simp_all <;> omega

theorem count_swap {α : Type} [Inhabited α] [DecidableEq α] {l : List α} {a b : ℕ}
    (ha : a < l.length) (hb : b < l.length) (c : α) :
    (_swap l a b).count c = l.count c := by
  unfold _swap
  have h1 := count_set l a ha (l.getD b default) c
  have h2 := count_set (l.set a (l.getD b default)) b (by simpa using hb)
    (l.getD a default) c
  by_cases hab : a = b
  · subst hab
    rw [getD_set_self ha] at h2
    split_ifs at h1 h2 <;> omega
  · rw [getD_set_other hab] at h2
    split_ifs at h1 h2 <;> omega

theorem count_shift_up {α : Type} [Inhabited α] [DecidableEq α]
    (less : α → α → Bool) :
    ∀ (l : List α) (index : ℕ), index < l.length → ∀ (c : α),
      (_shift_up less l index).count c = l.count c := by
  intro l index
  induction l, index using _shift_up.induct less with
  | case1 l index hcond ih =>
      intro hlen c
      unfold _shift_up
      rw [if_pos hcond]
      have hp : (index - 1) / 2 < l.length := by omega
      rw [ih (by rw [_swap_length]; omega) c, count_swap hlen hp]
  | case2 l index hcond =>
      intro hlen c
      unfold _shift_up
      rw [if_neg hcond]

theorem count_shift_down {α : Type} [Inhabited α] [DecidableEq α]
    (less : α → α → Bool) :
    ∀ (l : List α) (index : ℕ) (c : α),
      (_shift_down less l index).count c = l.count c := by
  intro l index
  induction l, index using _shift_down.induct less with
  | case1 l index hmc =>
      intro c
      unfold _shift_down
      split
      · rfl
      · rename_i mc heq
        rw [hmc] at heq
        exact Option.noConfusion heq
  | case2 l index mc hmc hlt ih =>
      intro c
      have hb : mc < l.length ∧ index < mc := by
        unfold _min_child at hmc
        split_ifs at hmc <;> simp only [Option.some.injEq] at hmc <;> omega
      unfold _shift_down
      split
      · rename_i heq
        rw [hmc] at heq
      · rename_i mc' heq
        rw [hmc] at heq
        cases Option.some.inj heq
        rw [if_pos hlt, ih c, count_swap (by omega) hb.1]
  | case3 l index mc hmc hlt =>
      intro c
      unfold _shift_down
      split
      · rfl
      · rename_i mc' heq
        rw [hmc] at heq
        cases Option.some.inj heq
        rw [if_neg hlt]

theorem count_insert {α : Type} [Inhabited α] [DecidableEq α] (h : BinaryHeap α)
    (x c : α) :
    (h.insert x)._items.count c = h._items.count c + (if x = c then 1 else 0) := by
  unfold BinaryHeap.insert
  dsimp only
  rw [count_shift_up _ _ _ (by simp), List.count_append, List.count_singleton']

theorem mem_insert_self {α : Type} [Inhabited α] [DecidableEq α] (h : BinaryHeap α)
    (x : α) : x ∈ (h.insert x)._items := by
  rw [← List.count_pos_iff, count_insert]
  simp

theorem mem_insert_of_mem {α : Type} [Inhabited α] [DecidableEq α]
    {h : BinaryHeap α} {y : α} (hy : y ∈ h._items) (x : α) :
    y ∈ (h.insert x)._items := by
  rw [← List.count_pos_iff, count_insert]
  have := List.count_pos_iff.mpr hy
  omega

theorem mem_of_mem_insert {α : Type} [Inhabited α] [DecidableEq α]
    {h : BinaryHeap α} {x y : α} (hy : y ∈ (h.insert x)._items) :
    y ∈ h._items ∨ y = x := by
  by_cases hxy : y = x
  · exact Or.inr hxy
  · left
    rw [← List.count_pos_iff] at hy ⊢
    rw [count_insert, if_neg (fun h => hxy h.symm)] at hy
    omega

theorem pop_count {α : Type} [Inhabited α] [DecidableEq α] {h : BinaryHeap α}
    {x : α} {h' : BinaryHeap α} (hpop : h.pop = .ok (x, h')) :
    ∀ c, h'._items.count c + (if x = c then 1 else 0) = h._items.count c := by
  have hne := pop_ok_ne_nil hpop
  have hn : 0 < h._items.length := List.length_pos.mpr hne
  have hx0 : x = h._items.getD 0 default := by
    unfold BinaryHeap.pop at hpop
    rw [if_neg (by omega)] at hpop
    simp only [Except.ok.injEq, Prod.mk.injEq] at hpop
    rw [← hpop.1, _swap_length, _swap_getD_snd (by omega)]
  have hh : h'._items = _shift_down h._less
      (_swap h._items 0 (h._items.length - 1)).dropLast 0 := by
    unfold BinaryHeap.pop at hpop
    rw [if_neg (by omega)] at hpop
    simp only [Except.ok.injEq, Prod.mk.injEq] at hpop
    rw [← hpop.2]
  intro c
  rw [hh, count_shift_down]
  have hswlen : (_swap h._items 0 (h._items.length - 1)).length = h._items.length :=
    _swap_length _ _ _
  have hswne : _swap h._items 0 (h._items.length - 1) ≠ [] := by
    intro hcontra
    rw [hcontra] at hswlen
    simp at hswlen
    omega
  have hdecomp := List.dropLast_append_getLast hswne
  have hcount := congrArg (fun l => l.count c) hdecomp
  simp only [List.count_append, List.count_singleton'] at hcount
  have hlast : (_swap h._items 0 (h._items.length - 1)).getLast hswne = x := by
    rw [List.getLast_eq_getElem, ← List.getD_eq_getElem _ default (by omega)]
    rw [hswlen, _swap_getD_snd (by omega), hx0]
  rw [hlast] at hcount
  rw [hcount, count_swap (by omega) (by omega)]

/-- Every reachable heap state carries its construction comparator and
satisfies the heap invariant. -/
theorem reachable_inv {α : Type} [Inhabited α] {less : α → α → Bool}
    (hok : LessOk less) {h : BinaryHeap α} (hr : Reachable less h) :
    h._less = less ∧ HeapInv less h._items := by
  induction hr with
  | empty =>
      refine ⟨rfl, ?_⟩
      intro k hk hklen
      simp [BinaryHeap.empty] at hklen
  | insert x hr ih =>
      obtain ⟨hl, hinv⟩ := ih
      refine ⟨hl, ?_⟩
      rw [← hl]
      rw [← hl] at hinv
      exact insert_heapInv (hl ▸ hok) hinv x
  | pop hr hpop ih =>
      obtain ⟨hl, hinv⟩ := ih
      rename_i hh x h'
      obtain ⟨x', h'', heq, -, -, -, hless, hinv'⟩ :=
        pop_spec (hl ▸ hok) (hl ▸ hinv) (pop_ok_ne_nil hpop)
      rw [hpop] at heq
      have hpair : (x, h') = (x', h'') := Except.ok.inj heq
      rw [Prod.mk.injEq] at hpair
      obtain ⟨-, h2⟩ := hpair
      subst h2
      exact ⟨hless.trans hl, hl ▸ hinv'⟩

end binary_heap

namespace binary_heap

theorem pop_mem_of_mem {α : Type} [Inhabited α] [DecidableEq α] {h : BinaryHeap α}
    {x : α} {h' : BinaryHeap α} (hpop : h.pop = .ok (x, h')) {c : α}
    (hc : c ∈ h'._items) : c ∈ h._items := by
  rw [← List.count_pos_iff] at hc ⊢
  have := pop_count hpop c
  omega

theorem pop_mem_of_ne {α : Type} [Inhabited α] [DecidableEq α] {h : BinaryHeap α}
    {x : α} {h' : BinaryHeap α} (hpop : h.pop = .ok (x, h')) {c : α}
    (hc : c ∈ h._items) (hcx : c ≠ x) : c ∈ h'._items := by
  rw [← List.count_pos_iff] at hc ⊢
  have := pop_count hpop c
  rw [if_neg (fun hcontra => hcx hcontra.symm)] at this
  omega

end binary_heap

/-- One entry of a Python dict grows the filter count by one when its value
flips from falsy to truthy (list of keys without duplicates). -/
theorem length_filter_dictSet_true {l : List ℕ} (hnd : l.Nodup) {f : ℕ → Bool}
    {u : ℕ} (hu : u ∈ l) (hf : f u = false) :
    (l.filter (fun v => dictSet f u true v)).length =
      (l.filter (fun v => f v)).length + 1 := by
  induction l with
  | nil => cases hu
  | cons a t ih =>
      rw [List.nodup_cons] at hnd
      rcases List.mem_cons.mp hu with rfl | hut
      · have ht : t.filter (fun v => dictSet f u true v) =
            t.filter (fun v => f v) := by
          apply List.filter_congr
          intro x hx
          have hxu : x ≠ u := by rintro rfl; exact hnd.1 hx
          simp [dictSet, hxu]
        simp only [List.filter_cons, dictSet_same, hf]
        rw [ht]
        simp
      · have hau : a ≠ u := by rintro rfl; exact hnd.1 hut
        have hda : dictSet f u true a = f a := dictSet_other f u true hau
        simp only [List.filter_cons, hda]
        cases hfa : f a <;>
          simp [hfa, ih hnd.2 hut]

/-! #### Nonnegative-weight graphs -/

theorem walkWeight_nonneg {g : Graph} (hnn : ∀ e ∈ g.edges, 0 ≤ e.2.2)
    {a b : ℕ} {p : List (ℕ × ℕ × ℚ)} (hp : IsWalk g a b p) : 0 ≤ walkWeight p := by
  induction hp with
  | nil => simp
  | cons he hp ih =>
      rw [walkWeight_cons]
      have := hnn _ he
      linarith

theorem no_negcycle_of_nonneg {g : Graph} (hnn : ∀ e ∈ g.edges, 0 ≤ e.2.2) :
    ¬ HasNegCycle g := by
  rintro ⟨u, c, hc, -, hcw⟩
  exact absurd (walkWeight_nonneg hnn hc) (by linarith)

namespace dijkstra_sssp

open binary_heap

/-! #### The tuple comparator of the Dijkstra heap -/

theorem tupleLess_iff (a b : DistVal × ℕ) :
    tupleLess a b = true ↔ (a.1 < b.1 ∨ (a.1 = b.1 ∧ a.2 < b.2)) := by
  simp [tupleLess]

theorem tupleLess_false_iff (a b : DistVal × ℕ) :
    tupleLess a b = false ↔ (b.1 < a.1 ∨ (b.1 = a.1 ∧ b.2 ≤ a.2)) := by
  have h : tupleLess a b = false ↔
      ¬ (a.1 < b.1 ∨ (a.1 = b.1 ∧ a.2 < b.2)) := by
    simp [tupleLess]
  rw [h]
  constructor
  · intro hna
    push_neg at hna
    obtain ⟨h1, h2⟩ := hna
    rcases eq_or_lt_of_le h1 with heq | hlt
    · exact Or.inr ⟨heq, h2 heq.symm⟩
    · exact Or.inl hlt
  · intro hd
    push_neg
    rcases hd with hlt | ⟨heq, hle⟩
    · exact ⟨le_of_lt hlt, fun heq' => absurd (heq' ▸ hlt) (lt_irrefl _)⟩
    · exact ⟨le_of_eq heq, fun _ => hle⟩

theorem lessOk_tupleLess : binary_heap.LessOk tupleLess := by
  constructor
  · intro a b hab
    rw [tupleLess_iff] at hab
    rw [tupleLess_false_iff]
    rcases hab with hlt | ⟨heq, hlt⟩
    · exact Or.inl hlt
    · exact Or.inr ⟨heq, le_of_lt hlt⟩
  · intro a b c hba hcb
    rw [tupleLess_false_iff] at hba hcb
    rw [tupleLess_false_iff]
    rcases hba with hab | ⟨hab, hab2⟩ <;> rcases hcb with hbc | ⟨hbc, hbc2⟩
    · exact Or.inl (lt_trans hab hbc)
    · exact Or.inl (hbc ▸ hab)
    · exact Or.inl (hab ▸ hbc)
    · exact Or.inr ⟨hab.trans hbc, le_trans hab2 hbc2⟩

/-! #### Field bookkeeping of the loop body -/

theorem relaxEdge_finalized (u : ℕ) (st : DState) (e : ℕ × ℕ × ℚ) :
    (relaxEdge u st e).finalized = st.finalized := by
  unfold relaxEdge; split <;> rfl

theorem relaxEdge_num_finalized (u : ℕ) (st : DState) (e : ℕ × ℕ × ℚ) :
    (relaxEdge u st e).num_finalized = st.num_finalized := by
  unfold relaxEdge; split <;> rfl

theorem relaxEdge_less (u : ℕ) (st : DState) (e : ℕ × ℕ × ℚ) :
    (relaxEdge u st e).heap._less = st.heap._less := by
  unfold relaxEdge
  split
  · exact binary_heap.insert_less _ _
  · rfl

theorem relaxEdge_dist_le (u : ℕ) (st : DState) (e : ℕ × ℕ × ℚ) (v : ℕ) :
    (relaxEdge u st e).dist v ≤ st.dist v := by
  unfold relaxEdge
  split
  · rename_i hlt
    by_cases hv : v = e.2.1
    · subst hv
      simpa using le_of_lt hlt
    · simp [dictSet_other _ _ _ hv]
  · exact le_refl _

/-! #### The initial state -/

theorem initState_dist (s : ℕ) :
    (initState s).dist = dictSet (fun _ => (⊤ : DistVal)) s 0 := rfl

theorem initState_finalized (s : ℕ) :
    (initState s).finalized = fun _ => false := rfl

theorem initState_num_finalized (s : ℕ) : (initState s).num_finalized = 0 := rfl

theorem initState_items (s : ℕ) :
    (initState s).heap._items = [((0 : DistVal), s)] ∧
      (initState s).heap._less = tupleLess := by
  constructor
  · show (((BinaryHeap.empty tupleLess).insert
      ((dictSet (fun _ => (⊤ : DistVal)) s 0) s, s))._items) = _
    unfold BinaryHeap.insert BinaryHeap.empty
    dsimp only
    unfold binary_heap._shift_up
    simp [dictSet]
  · show ((BinaryHeap.empty tupleLess).insert _)._less = _
    rw [binary_heap.insert_less]
    rfl

/-- The loop invariant holds on the initial state built by `_init` and the
first `heap.insert`. -/
theorem initState_inv {g : Graph} (hwf : g.WF) {s : ℕ} (hs : s ∈ g.nodes) :
    Inv g s (initState s) := by
  obtain ⟨hitems, hless⟩ := initState_items s
  have hdist : ∀ v, (initState s).dist v = if v = s then 0 else ⊤ := by
    intro v
    rw [initState_dist]
    by_cases hv : v = s
    · subst hv; simp [dictSet]
    · simp [dictSet, hv]
  refine { hless := hless, hheap := ?_, sound := ?_, hsrc := ?_, fopt := ?_,
           hfresh := ?_, hentries := ?_, hfinal_nodes := ?_, hcount := ?_,
           ftri := ?_ }
  · intro j hj0 hjlen
    rw [hitems] at hjlen
    simp at hjlen
    omega
  · intro v hv
    by_cases hvs : v = s
    · subst hvs
      refine ⟨[], IsWalk.nil v, ?_⟩
      rw [hdist]
      simp
    · rw [hdist, if_neg hvs] at hv
      exact absurd rfl hv
  · rw [hdist]; simp
  · intro u hu
    rw [initState_finalized] at hu
    cases hu
  · intro v hv hvne
    by_cases hvs : v = s
    · subst hvs
      rw [hitems, hdist]
      simp
    · rw [hdist, if_neg hvs] at hvne
      exact absurd rfl hvne
  · intro it hit
    rw [hitems, List.mem_singleton] at hit
    subst hit
    refine ⟨hs, ?_, ?_⟩
    · rw [hdist]; simp
    · exact WithTop.zero_ne_top
  · intro v hv
    rw [initState_finalized] at hv
    cases hv
  · rw [initState_num_finalized, initState_finalized]
    simp
  · intro u hu
    rw [initState_finalized] at hu
    cases hu

/-! #### One relaxation step of the inner `for` loop -/

/-- Relaxing one outgoing edge of `u` preserves the partial invariant, leaves
the finalized bookkeeping and the distances of finalized nodes untouched,
never increases any distance, and establishes the triangle inequality for the
processed edge. -/
theorem relaxEdge_step {g : Graph} (hwf : g.WF) {s u : ℕ} {st : DState}
    (hpi : PInv g s st) {e : ℕ × ℕ × ℚ} (he : e ∈ g.edges) (heu : e.1 = u) :
    PInv g s (relaxEdge u st e) ∧
    (relaxEdge u st e).finalized = st.finalized ∧
    (relaxEdge u st e).num_finalized = st.num_finalized ∧
    (∀ w, st.finalized w = true → (relaxEdge u st e).dist w = st.dist w) ∧
    (∀ v, (relaxEdge u st e).dist v ≤ st.dist v) ∧
    (relaxEdge u st e).dist e.2.1 ≤ st.dist u + (e.2.2 : DistVal) := by
  by_cases hlt : st.dist u + (e.2.2 : DistVal) < st.dist e.2.1
  · -- the edge relaxes: the target's distance drops and a heap entry is pushed
    have hdist' : (relaxEdge u st e).dist =
        dictSet st.dist e.2.1 (st.dist u + (e.2.2 : DistVal)) := by
      unfold relaxEdge; rw [if_pos hlt]
    have hheap' : (relaxEdge u st e).heap =
        st.heap.insert (st.dist u + (e.2.2 : DistVal), e.2.1) := by
      unfold relaxEdge; rw [if_pos hlt]
    have hfin' := relaxEdge_finalized u st e
    have hnum' := relaxEdge_num_finalized u st e
    have hunt : st.dist u ≠ ⊤ := by
      intro htop
      rw [htop, top_add] at hlt
      exact not_top_lt hlt
    obtain ⟨p, hp, hpw⟩ := hpi.sound u hunt
    have hwalkt : IsWalk g s e.2.1 (p ++ [e]) :=
      isWalk_snoc_iff.mpr ⟨by rw [heu]; exact hp, he, rfl⟩
    have hcast : (walkWeight (p ++ [e]) : DistVal) =
        st.dist u + (e.2.2 : DistVal) := by
      rw [walkWeight_append, walkWeight_cons, walkWeight_nil]
      push_cast
      rw [hpw, add_zero]
    have hok : binary_heap.LessOk st.heap._less := by
      rw [hpi.hless]; exact lessOk_tupleLess
    have hfixed : ∀ w, st.finalized w = true →
        (relaxEdge u st e).dist w = st.dist w := by
      intro w hwfin
      rw [hdist']
      by_cases hwt : w = e.2.1
      · exfalso
        have hub := hpi.fopt w hwfin (p ++ [e]) (by rw [hwt]; exact hwalkt)
        rw [hcast, hwt] at hub
        exact absurd (lt_of_le_of_lt hub hlt) (lt_irrefl _)
      · exact dictSet_other _ _ _ hwt
    refine ⟨?_, hfin', hnum', hfixed, relaxEdge_dist_le u st e, ?_⟩
    · refine { hless := ?_, hheap := ?_, sound := ?_, hsrc := ?_, fopt := ?_,
               hfresh := ?_, hentries := ?_, hfinal_nodes := ?_, hcount := ?_ }
      · rw [hheap', binary_heap.insert_less]
        exact hpi.hless
      · rw [hheap']
        have hinv : binary_heap.HeapInv st.heap._less st.heap._items := by
          rw [hpi.hless]; exact hpi.hheap
        have := binary_heap.insert_heapInv hok hinv
          (st.dist u + (e.2.2 : DistVal), e.2.1)
        rw [hpi.hless] at this
        exact this
      · intro v hv
        rw [hdist'] at hv ⊢
        by_cases hvt : v = e.2.1
        · subst hvt
          rw [dictSet_same]
          exact ⟨p ++ [e], hwalkt, hcast⟩
        · rw [dictSet_other _ _ _ hvt] at hv ⊢
          exact hpi.sound v hv
      · exact le_trans (relaxEdge_dist_le u st e s) hpi.hsrc
      · intro w hwfin q hq
        rw [hfin'] at hwfin
        rw [hfixed w hwfin]
        exact hpi.fopt w hwfin q hq
      · intro v hvfin hvne
        rw [hfin'] at hvfin
        rw [hdist'] at hvne ⊢
        rw [hheap']
        by_cases hvt : v = e.2.1
        · subst hvt
          rw [dictSet_same]
          exact binary_heap.mem_insert_self _ _
        · rw [dictSet_other _ _ _ hvt] at hvne ⊢
          exact binary_heap.mem_insert_of_mem (hpi.hfresh v hvfin hvne) _
      · intro it hit
        rw [hheap'] at hit
        rcases binary_heap.mem_of_mem_insert hit with hold | hnew
        · obtain ⟨hmem, hle, hne⟩ := hpi.hentries it hold
          exact ⟨hmem, le_trans (relaxEdge_dist_le u st e it.2) hle, hne⟩
        · subst hnew
          refine ⟨(hwf.2 e he).2, ?_, ne_top_of_lt hlt⟩
          rw [hdist']
          dsimp only
          rw [dictSet_same]
      · intro v hv
        rw [hfin'] at hv
        exact hpi.hfinal_nodes v hv
      · rw [hnum', hfin']
        exact hpi.hcount
    · rw [hdist', dictSet_same]
  · -- the edge does not relax: the state is unchanged
    have hre : relaxEdge u st e = st := by
      unfold relaxEdge; rw [if_neg hlt]
    rw [hre]
    exact ⟨hpi, rfl, rfl, fun _ _ => rfl, fun _ => le_refl _, le_of_not_lt hlt⟩

/-- Folding the relaxation step over a list of outgoing edges of a finalized
node `u`: the partial invariant is preserved, and afterwards every processed
edge satisfies the triangle inequality. -/
theorem fold_relax_spec {g : Graph} (hwf : g.WF) {s u : ℕ} :
    ∀ (l : List (ℕ × ℕ × ℚ)) {st : DState}, (∀ e ∈ l, e ∈ g.edges ∧ e.1 = u) →
    PInv g s st → st.finalized u = true →
    PInv g s (l.foldl (relaxEdge u) st) ∧
    (l.foldl (relaxEdge u) st).finalized = st.finalized ∧
    (l.foldl (relaxEdge u) st).num_finalized = st.num_finalized ∧
    (∀ w, st.finalized w = true →
      (l.foldl (relaxEdge u) st).dist w = st.dist w) ∧
    (∀ v, (l.foldl (relaxEdge u) st).dist v ≤ st.dist v) ∧
    (∀ e ∈ l, (l.foldl (relaxEdge u) st).dist e.2.1 ≤
      (l.foldl (relaxEdge u) st).dist u + (e.2.2 : DistVal)) := by
  intro l
  induction l with
  | nil =>
      intro st hl hpi hufin
      exact ⟨hpi, rfl, rfl, fun _ _ => rfl, fun _ => le_refl _,
        fun e he => absurd he (List.not_mem_nil e)⟩
  | cons e l ih =>
      intro st hl hpi hufin
      obtain ⟨he, heu⟩ := hl e (List.mem_cons_self e l)
      obtain ⟨hpi1, hfin1, hnum1, hfix1, hle1, hrel1⟩ :=
        relaxEdge_step hwf hpi he heu
      have hufin1 : (relaxEdge u st e).finalized u = true := by
        rw [hfin1]; exact hufin
      obtain ⟨hpi2, hfin2, hnum2, hfix2, hle2, hrel2⟩ :=
        ih (fun f hf => hl f (List.mem_cons_of_mem e hf)) hpi1 hufin1
      rw [List.foldl_cons]
      refine ⟨hpi2, hfin2.trans hfin1, hnum2.trans hnum1, ?_, ?_, ?_⟩
      · intro w hw
        have hw1 : (relaxEdge u st e).finalized w = true := by
          rw [hfin1]; exact hw
        rw [hfix2 w hw1, hfix1 w hw]
      · intro v
        exact le_trans (hle2 v) (hle1 v)
      · intro f hf
        have hudist : (l.foldl (relaxEdge u) (relaxEdge u st e)).dist u =
            st.dist u := by
          rw [hfix2 u hufin1, hfix1 u hufin]
        rcases List.mem_cons.mp hf with heq | hfl
        · rw [heq]
          calc (l.foldl (relaxEdge u) (relaxEdge u st e)).dist e.2.1 ≤
              (relaxEdge u st e).dist e.2.1 := hle2 _
            _ ≤ st.dist u + (e.2.2 : DistVal) := hrel1
            _ = (l.foldl (relaxEdge u) (relaxEdge u st e)).dist u +
                (e.2.2 : DistVal) := by rw [hudist]
        · exact hrel2 f hfl

/-! #### The frontier argument -/

/-- Along a walk whose first `i` visited nodes are all finalized, the `i`-th
node's distance label is at most the weight of the corresponding prefix. -/
theorem inv_dist_le_prefix {g : Graph} {s : ℕ} {st : DState} (hinv : Inv g s st)
    {t : ℕ} {p : List (ℕ × ℕ × ℚ)} (hp : IsWalk g s t p) :
    ∀ i, i ≤ p.length → (∀ j, j < i → st.finalized (nodeAt s p j) = true) →
      st.dist (nodeAt s p i) ≤ (walkWeight (p.take i) : DistVal) := by
  intro i
  induction i with
  | zero =>
      intro _ _
      rw [nodeAt_zero, List.take_zero, walkWeight_nil]
      exact le_trans hinv.hsrc (by simp)
  | succ i ihp =>
      intro hi1 hfin
      have hilt : i < p.length := hi1
      have hi : i ≤ p.length := le_of_lt hilt
      have htake1 : p.take (i + 1) = p.take i ++ [p.getD i (0, 0, 0)] := by
        rw [List.take_succ, List.getD_eq_getElem _ _ hilt]
        simp [List.getElem?_eq_getElem hilt]
      have hw1 : IsWalk g s (nodeAt s p (i + 1)) (p.take (i + 1)) :=
        isWalk_take hp (i + 1) hi1
      rw [htake1] at hw1
      obtain ⟨hq, he, hend⟩ := isWalk_snoc_iff.mp hw1
      have he1 : (p.getD i (0, 0, 0)).1 = nodeAt s p i :=
        hq.end_unique (isWalk_take hp i hi)
      have hfin_i : st.finalized ((p.getD i (0, 0, 0)).1) = true := by
        rw [he1]; exact hfin i (Nat.lt_succ_self i)
      have htri := hinv.ftri _ hfin_i _ he rfl
      have hihres := ihp hi (fun j hj => hfin j (Nat.lt_succ_of_lt hj))
      have hnode : nodeAt s p (i + 1) = (p.getD i (0, 0, 0)).2.1 := rfl
      rw [hnode, htake1, walkWeight_append, walkWeight_cons, walkWeight_nil,
        add_zero]
      push_cast
      calc st.dist (p.getD i (0, 0, 0)).2.1 ≤
          st.dist (p.getD i (0, 0, 0)).1 + ((p.getD i (0, 0, 0)).2.2 : DistVal) :=
            htri
        _ ≤ (walkWeight (p.take i) : DistVal) +
            ((p.getD i (0, 0, 0)).2.2 : DistVal) := by
            apply add_le_add_right
            rw [← he1] at hihres
            exact hihres

/-- Either a walk's endpoint already satisfies the distance upper bound, or
some node along it is unfinalized, sits in the heap, and its label is bounded
by the weight of the walk prefix reaching it. -/
theorem inv_walk_cases {g : Graph} {s : ℕ} {st : DState} (hinv : Inv g s st)
    {v : ℕ} {p : List (ℕ × ℕ × ℚ)} (hp : IsWalk g s v p) :
    st.dist v ≤ (walkWeight p : DistVal) ∨
    ∃ i, i ≤ p.length ∧ st.finalized (nodeAt s p i) = false ∧
      (st.dist (nodeAt s p i), nodeAt s p i) ∈ st.heap._items ∧
      st.dist (nodeAt s p i) ≤ (walkWeight (p.take i) : DistVal) := by
  by_cases hall : ∀ i, i ≤ p.length → st.finalized (nodeAt s p i) = true
  · left
    have hbd := inv_dist_le_prefix hinv hp p.length le_rfl
      (fun j hj => hall j (le_of_lt hj))
    rw [List.take_length] at hbd
    have hW := isWalk_take hp p.length le_rfl
    rw [List.take_length] at hW
    rw [hW.end_unique hp] at hbd
    exact hbd
  · right
    push_neg at hall
    have hex : ∃ i, i ≤ p.length ∧ st.finalized (nodeAt s p i) = false := by
      obtain ⟨i, hi, hfi⟩ := hall
      exact ⟨i, hi, by simpa using hfi⟩
    have hspec := Nat.find_spec hex
    have hprefixfin : ∀ j, j < Nat.find hex →
        st.finalized (nodeAt s p j) = true := by
      intro j hj
      have hjle : j ≤ p.length := le_trans (le_of_lt hj) hspec.1
      have hnotmin := Nat.find_min hex hj
      rcases Bool.eq_false_or_eq_true (st.finalized (nodeAt s p j)) with hf | hf
      · exact hf
      · exact absurd ⟨hjle, hf⟩ hnotmin
    have hbound := inv_dist_le_prefix hinv hp (Nat.find hex) hspec.1 hprefixfin
    have hne : st.dist (nodeAt s p (Nat.find hex)) ≠ ⊤ :=
      (lt_of_le_of_lt hbound (WithTop.coe_lt_top _)).ne
    exact ⟨Nat.find hex, hspec.1, hspec.2,
      hinv.hfresh _ hspec.2 hne, hbound⟩

/-- The minimal heap entry's node has an optimal label: the popped node's
distance is a lower bound over all walks from the source to it. -/
theorem popped_min_le_walks {g : Graph} (hnn : ∀ e ∈ g.edges, 0 ≤ e.2.2)
    {s : ℕ} {st : DState} (hinv : Inv g s st) {item : DistVal × ℕ}
    (hmem : item ∈ st.heap._items)
    (hmin : ∀ y ∈ st.heap._items, tupleLess y item = false) :
    ∀ p, IsWalk g s item.2 p → st.dist item.2 ≤ (walkWeight p : DistVal) := by
  intro p hp
  rcases inv_walk_cases hinv hp with h | ⟨i, hi, hfini, hmemi, hbound⟩
  · exact h
  · have h1 : st.dist item.2 ≤ item.1 := (hinv.hentries item hmem).2.1
    have h2 : item.1 ≤ st.dist (nodeAt s p i) := by
      have hfalse := hmin _ hmemi
      rw [tupleLess_false_iff] at hfalse
      rcases hfalse with hlt | ⟨heq, -⟩
      · exact le_of_lt hlt
      · exact le_of_eq heq
    have h4 : (walkWeight (p.take i) : DistVal) ≤ (walkWeight p : DistVal) := by
      have hsplit : walkWeight p =
          walkWeight (p.take i) + walkWeight (p.drop i) := by
        rw [← walkWeight_append, List.take_append_drop]
      have hdropw : 0 ≤ walkWeight (p.drop i) :=
        walkWeight_nonneg hnn (isWalk_drop hp i hi)
      rw [hsplit]
      exact WithTop.coe_le_coe.mpr (by linarith)
    exact le_trans h1 (le_trans h2 (le_trans hbound h4))

/-- When the loop guard fails, the invariant forces the distance labels to be
lower bounds over all walks from the source. -/
theorem inv_final_ub {g : Graph} (hwf : g.WF) {s : ℕ} (hs : s ∈ g.nodes)
    {st : DState} (hinv : Inv g s st)
    (hstop : ¬ (st.num_finalized < g.nodes.length ∧
      0 < st.heap._items.length)) :
    ∀ v p, IsWalk g s v p → st.dist v ≤ (walkWeight p : DistVal) := by
  intro v p hp
  rcases inv_walk_cases hinv hp with h | ⟨i, hi, hfini, hmemi, hbound⟩
  · exact h
  · exfalso
    push_neg at hstop
    rcases Nat.lt_or_ge st.num_finalized g.nodes.length with hlt | hge
    · have hempty := hstop hlt
      have hpos := List.length_pos_of_mem hmemi
      omega
    · have hallfin : ∀ w ∈ g.nodes, st.finalized w = true := by
        have hsub : List.Sublist (g.nodes.filter (fun w => st.finalized w))
            g.nodes := List.filter_sublist _
        have hlen : (g.nodes.filter (fun w => st.finalized w)).length =
            g.nodes.length := by
          have hle := hsub.length_le
          have hc := hinv.hcount
          omega
        have heq := hsub.eq_of_length hlen
        intro w hw
        rw [← heq] at hw
        exact (List.mem_filter.mp hw).2
      have hnode_mem : nodeAt s p i ∈ g.nodes := by
        cases i with
        | zero => rw [nodeAt_zero]; exact hs
        | succ k =>
            have hklt : k < p.length := hi
            have hnode : nodeAt s p (k + 1) = (p.getD k (0, 0, 0)).2.1 := rfl
            rw [hnode]
            have hpk : p.getD k (0, 0, 0) ∈ p := by
              rw [List.getD_eq_getElem _ _ hklt]
              exact List.getElem_mem _
            exact (hwf.2 _ (hp.edges_subset _ hpk)).2
      rw [hallfin _ hnode_mem] at hfini
      cases hfini

/-! #### Unfolding the main loop -/

theorem loop_eq_stop {g : Graph} {st : DState}
    (hstop : ¬ (st.num_finalized < g.nodes.length ∧
      0 < st.heap._items.length)) :
    loop g st = st := by
  unfold loop
  rw [dif_neg hstop]

theorem loop_eq_of_pop_finalized {g : Graph} {st : DState}
    (hguard : st.num_finalized < g.nodes.length ∧ 0 < st.heap._items.length)
    {item : DistVal × ℕ} {heap' : BinaryHeap (DistVal × ℕ)}
    (hpop : st.heap.pop = .ok (item, heap'))
    (hfin : st.finalized item.2 = true) :
    loop g st = loop g { st with heap := heap' } := by
  conv_lhs => unfold loop
  rw [dif_pos hguard]
  split
  · rename_i err heq
    rw [hpop] at heq
    cases heq
  · rename_i item' heap'' heq
    rw [hpop] at heq
    simp only [Except.ok.injEq, Prod.mk.injEq] at heq
    obtain ⟨rfl, rfl⟩ := heq
    rw [if_pos hfin]

theorem loop_eq_of_pop_fresh {g : Graph} {st : DState}
    (hguard : st.num_finalized < g.nodes.length ∧ 0 < st.heap._items.length)
    {item : DistVal × ℕ} {heap' : BinaryHeap (DistVal × ℕ)}
    (hpop : st.heap.pop = .ok (item, heap'))
    (hfin : st.finalized item.2 = false) :
    loop g st = loop g ((edgesFrom g item.2).foldl (relaxEdge item.2)
      { st with
          heap := heap'
          finalized := dictSet st.finalized item.2 true
          num_finalized := st.num_finalized + 1 }) := by
  conv_lhs => unfold loop
  rw [dif_pos hguard]
  split
  · rename_i err heq
    rw [hpop] at heq
    cases heq
  · rename_i item' heap'' heq
    rw [hpop] at heq
    simp only [Except.ok.injEq, Prod.mk.injEq] at heq
    obtain ⟨rfl, rfl⟩ := heq
    rw [if_neg (by rw [hfin]; exact Bool.false_ne_true)]

/-- The loop invariant is preserved to the final state, where the guard
fails. -/
theorem loop_inv {g : Graph} (hwf : g.WF) (hnn : ∀ e ∈ g.edges, 0 ≤ e.2.2)
    {s : ℕ} : ∀ st : DState, Inv g s st →
    Inv g s (loop g st) ∧
    ¬ ((loop g st).num_finalized < g.nodes.length ∧
      0 < (loop g st).heap._items.length) := by
  intro st
  induction st using loop.induct g with
  | case1 st hguard err hpop =>
      intro hinv
      exfalso
      have hlen := hguard.2
      unfold BinaryHeap.pop at hpop
      rw [if_neg (by omega)] at hpop
      cases hpop
  | case2 st hguard item heap' hpop hfin ih =>
      intro hinv
      have hok : LessOk st.heap._less := by
        rw [hinv.hless]; exact lessOk_tupleLess
      have hheapinv : HeapInv st.heap._less st.heap._items := by
        rw [hinv.hless]; exact hinv.hheap
      have hne : st.heap._items ≠ [] :=
        List.ne_nil_of_length_pos hguard.2
      obtain ⟨x, h', heq, hroot, hmemx, hminx, hless', hinv'⟩ :=
        pop_spec hok hheapinv hne
      rw [hpop] at heq
      simp only [Except.ok.injEq, Prod.mk.injEq] at heq
      obtain ⟨rfl, rfl⟩ := heq
      have hinv2 : Inv g s { st with heap := heap' } := by
        refine { hless := ?_, hheap := ?_, sound := hinv.sound,
                 hsrc := hinv.hsrc, fopt := hinv.fopt, hfresh := ?_,
                 hentries := ?_, hfinal_nodes := hinv.hfinal_nodes,
                 hcount := hinv.hcount, ftri := hinv.ftri }
        · rw [hless']; exact hinv.hless
        · rw [hinv.hless] at hinv'; exact hinv'
        · intro v hvfin hvne
          have hold := hinv.hfresh v hvfin hvne
          have hne' : (st.dist v, v) ≠ item := by
            intro hco
            have : st.finalized item.2 = st.finalized v := by rw [← hco]
            rw [hfin] at this
            rw [hvfin] at this
            cases this
          exact pop_mem_of_ne hpop hold hne'
        · intro it hit
          exact hinv.hentries it (pop_mem_of_mem hpop hit)
      rw [loop_eq_of_pop_finalized hguard hpop hfin]
      exact ih hinv2
  | case3 st hguard item heap' hpop hfin ih =>
      intro hinv
      have hfin' : st.finalized item.2 = false := by simpa using hfin
      have hok : LessOk st.heap._less := by
        rw [hinv.hless]; exact lessOk_tupleLess
      have hheapinv : HeapInv st.heap._less st.heap._items := by
        rw [hinv.hless]; exact hinv.hheap
      have hne : st.heap._items ≠ [] :=
        List.ne_nil_of_length_pos hguard.2
      obtain ⟨x, h', heq, hroot, hmemx, hminx, hless', hinv'⟩ :=
        pop_spec hok hheapinv hne
      rw [hpop] at heq
      simp only [Except.ok.injEq, Prod.mk.injEq] at heq
      obtain ⟨rfl, rfl⟩ := heq
      have hmin' : ∀ y ∈ st.heap._items, tupleLess y item = false := by
        intro y hy
        have := hminx y hy
        rw [hinv.hless] at this
        exact this
      have hpopped := popped_min_le_walks hnn hinv hmemx hmin'
      have hitem_mem : item.2 ∈ g.nodes := (hinv.hentries item hmemx).1
      have hpinv1 : PInv g s
          { st with
              heap := heap'
              finalized := dictSet st.finalized item.2 true
              num_finalized := st.num_finalized + 1 } := by
        refine { hless := ?_, hheap := ?_, sound := hinv.sound,
                 hsrc := hinv.hsrc, fopt := ?_, hfresh := ?_,
                 hentries := ?_, hfinal_nodes := ?_, hcount := ?_ }
        · rw [hless']; exact hinv.hless
        · rw [hinv.hless] at hinv'; exact hinv'
        · intro w hwfin q hq
          dsimp only at hwfin ⊢
          by_cases hw : w = item.2
          · subst hw
            exact hpopped q hq
          · rw [dictSet_other _ _ _ hw] at hwfin
            exact hinv.fopt w hwfin q hq
        · intro v hvfin hvne
          dsimp only at hvfin hvne ⊢
          have hvne_item : v ≠ item.2 := by
            intro hco
            rw [hco, dictSet_same] at hvfin
            cases hvfin
          rw [dictSet_other _ _ _ hvne_item] at hvfin
          have hold := hinv.hfresh v hvfin hvne
          have hne' : (st.dist v, v) ≠ item := by
            intro hco
            exact hvne_item (congrArg Prod.snd hco)
          exact pop_mem_of_ne hpop hold hne'
        · intro it hit
          exact hinv.hentries it (pop_mem_of_mem hpop hit)
        · intro w hwfin
          dsimp only at hwfin
          by_cases hw : w = item.2
          · subst hw; exact hitem_mem
          · rw [dictSet_other _ _ _ hw] at hwfin
            exact hinv.hfinal_nodes w hwfin
        · dsimp only
          show st.num_finalized + 1 =
            (g.nodes.filter (fun v => dictSet st.finalized item.2 true v)).length
          rw [length_filter_dictSet_true hwf.1 hitem_mem hfin', ← hinv.hcount]
      have hufin1 : (dictSet st.finalized item.2 true) item.2 = true :=
        dictSet_same _ _ _
      have hedges : ∀ e ∈ edgesFrom g item.2, e ∈ g.edges ∧ e.1 = item.2 := by
        intro e he
        unfold edgesFrom at he
        have := List.mem_filter.mp he
        exact ⟨this.1, of_decide_eq_true this.2⟩
      obtain ⟨hpi2, hfin2, hnum2, hfix2, hle2, hrel2⟩ :=
        fold_relax_spec hwf (edgesFrom g item.2) hedges hpinv1 hufin1
      have hinv2 : Inv g s ((edgesFrom g item.2).foldl (relaxEdge item.2)
          { st with
              heap := heap'
              finalized := dictSet st.finalized item.2 true
              num_finalized := st.num_finalized + 1 }) := by
        refine { toPInv := hpi2, ftri := ?_ }
        intro w hwfin e he heu
        rw [hfin2] at hwfin
        dsimp only at hwfin
        by_cases hw : w = item.2
        · subst hw
          have hmem : e ∈ edgesFrom g item.2 := by
            unfold edgesFrom
            exact List.mem_filter.mpr ⟨he, by rw [heu]; simp⟩
          exact hrel2 e hmem
        · have hwold : st.finalized w = true := by
            rw [dictSet_other _ _ _ hw] at hwfin
            exact hwfin
          have hwfin1 : (dictSet st.finalized item.2 true) w = true := by
            rw [dictSet_other _ _ _ hw]
            exact hwold
          have hold := hinv.ftri w hwold e he heu
          calc ((edgesFrom g item.2).foldl (relaxEdge item.2) _).dist e.2.1 ≤
              st.dist e.2.1 := hle2 e.2.1
            _ ≤ st.dist w + (e.2.2 : DistVal) := hold
            _ = _ := by rw [← hfix2 w hwfin1]
      rw [loop_eq_of_pop_fresh hguard hpop hfin']
      exact ih hinv2
  | case4 st hstop =>
      intro hinv
      rw [loop_eq_stop hstop]
      exact ⟨hinv, hstop⟩

/-- Full correctness of the Dijkstra solver on nonnegative-weight graphs:
the returned distance map is the shortest-walk profile from the source. -/
theorem dijkstra_shortest {g : Graph} (hwf : g.WF)
    (hnn : ∀ e ∈ g.edges, 0 ≤ e.2.2) {s : ℕ} (hs : s ∈ g.nodes) :
    IsShortestDist g s (dijkstra_shortest_paths g s).dist := by
  obtain ⟨hinv, hstop⟩ := loop_inv hwf hnn (initState s) (initState_inv hwf hs)
  unfold dijkstra_shortest_paths
  dsimp only
  constructor
  · intro v p hp
    exact inv_final_ub hwf hs hinv hstop v p hp
  · intro v hv
    exact hinv.sound v hv

end dijkstra_sssp

/-! #### Full correctness of Bellman-Ford in the cycle-free-from-source case -/

namespace bellman_ford_sssp

/-- When no negative cycle is reachable from a source node, the `|V| - 1`
relaxation passes compute exactly the shortest-walk distances. -/
theorem bf_dist_shortest {g : Graph} (hwf : g.WF) {s : ℕ} (hs : s ∈ g.nodes)
    (hnc : ¬ HasNegCycleFrom g s) :
    IsShortestDist g s (bfIter g s (g.nodes.length - 1)).dist := by
  constructor
  · intro v p hp
    obtain ⟨q, hq, hqlen, hqw⟩ := exists_short_walk hwf hs hnc p.length p v le_rfl hp
    calc (bfIter g s (g.nodes.length - 1)).dist v ≤ (walkWeight q : DistVal) :=
          bfIter_dist_le_walk g s _ v q hq hqlen
      _ ≤ (walkWeight p : DistVal) := by exact_mod_cast hqw
  · exact distSound_bfIter g s _

/-- Bellman-Ford on a source node with no reachable negative cycle returns
normally, and its distance map is the shortest-walk profile. -/
theorem bf_correct {g : Graph} (hwf : g.WF) {s : ℕ} (hs : s ∈ g.nodes)
    (hnc : ¬ HasNegCycleFrom g s) :
    bellman_ford_shortest_paths g s = .ok (bfIter g s (g.nodes.length - 1)) ∧
    IsShortestDist g s (bfIter g s (g.nodes.length - 1)).dist := by
  refine ⟨?_, bf_dist_shortest hwf hs hnc⟩
  rcases bf_error_or_ok g s with h | h
  · exact absurd ((bf_error_iff_negcycle hwf s).mp h) hnc
  · exact h

end bellman_ford_sssp

/-! #### Johnson's reweighting theory -/

namespace johnsons_apsp

open bellman_ford_sssp

/-- On a well-formed graph without a negative cycle, `_compute_node_weights`
succeeds, returns the working graph unchanged, and its node-weight dict
satisfies the triangle inequality along every edge. -/
theorem compute_node_weights_spec {g : Graph} (hwf : g.WF)
    (hnc : ¬ HasNegCycle g) :
    ∃ nw : ℕ → ℚ, _compute_node_weights g = .ok (nw, g) ∧
      ∀ e ∈ g.edges, nw e.2.1 ≤ nw e.1 + e.2.2 := by
  have hok : bellman_ford_shortest_paths (add_supersource g).2
      (add_supersource g).1 =
      .ok (bfIter (add_supersource g).2 (add_supersource g).1
        ((add_supersource g).2.nodes.length - 1)) := by
    rcases bf_error_or_ok (add_supersource g).2 (add_supersource g).1 with h | h
    · exact absurd ((hasNegCycleFrom_aug_iff hwf).mp
        ((bf_error_iff_negcycle (add_supersource_wf hwf) _).mp h)) hnc
    · exact h
  refine ⟨fun v => ((bfIter (add_supersource g).2 (add_supersource g).1
      ((add_supersource g).2.nodes.length - 1)).dist v).untop' 0, ?_, ?_⟩
  · unfold _compute_node_weights
    simp only [hok]
    rw [remove_add_supersource hwf]
  · intro e he
    have htri := (bf_ok_iff_no_relax _ _).mp hok e
      (by simp only [add_supersource, List.mem_append]; exact Or.inl he)
    have hufin := aug_dist_finite (g := g) (hwf.2 e he).1
    have hvfin := aug_dist_finite (g := g) (hwf.2 e he).2
    obtain ⟨a, ha⟩ := WithTop.ne_top_iff_exists.mp hufin
    obtain ⟨b, hb⟩ := WithTop.ne_top_iff_exists.mp hvfin
    rw [← ha, ← hb] at htri
    have hq : b ≤ a + e.2.2 := by exact_mod_cast htri
    dsimp only
    rw [← ha, ← hb, WithTop.untop'_coe, WithTop.untop'_coe]
    exact hq

theorem reweight_wf {g : Graph} (hwf : g.WF) (nw : ℕ → ℚ) :
    (_reweight_edges_using_node_weights g nw).WF := by
  refine ⟨hwf.1, ?_⟩
  intro e he
  unfold _reweight_edges_using_node_weights at he
  simp only [List.mem_map] at he
  obtain ⟨f, hf, rfl⟩ := he
  exact ⟨(hwf.2 f hf).1, (hwf.2 f hf).2⟩

theorem reweight_nonneg {g : Graph} {nw : ℕ → ℚ}
    (htri : ∀ e ∈ g.edges, nw e.2.1 ≤ nw e.1 + e.2.2) :
    ∀ e ∈ (_reweight_edges_using_node_weights g nw).edges, 0 ≤ e.2.2 := by
  intro e he
  unfold _reweight_edges_using_node_weights at he
  simp only [List.mem_map] at he
  obtain ⟨f, hf, rfl⟩ := he
  have := htri f hf
  dsimp only
  linarith

/-- Walks survive the reweighting, with weights shifted by the potential
difference of the endpoints (telescoping). -/
theorem isWalk_reweight {g : Graph} (nw : ℕ → ℚ) {a b : ℕ}
    {p : List (ℕ × ℕ × ℚ)} (hp : IsWalk g a b p) :
    IsWalk (_reweight_edges_using_node_weights g nw) a b
      (p.map (fun e => (e.1, e.2.1, e.2.2 + nw e.1 - nw e.2.1))) ∧
    walkWeight (p.map (fun e => (e.1, e.2.1, e.2.2 + nw e.1 - nw e.2.1))) =
      walkWeight p + nw a - nw b := by
  induction hp with
  | nil v =>
      refine ⟨IsWalk.nil v, ?_⟩
      simp
  | cons he hq ih =>
      rename_i u v t w q
      refine ⟨?_, ?_⟩
      · rw [List.map_cons]
        refine IsWalk.cons ?_ ih.1
        unfold _reweight_edges_using_node_weights
        simp only [List.mem_map]
        exact ⟨(u, v, w), he, rfl⟩
      · rw [List.map_cons, walkWeight_cons, walkWeight_cons, ih.2]
        dsimp only
        ring

/-- Every walk of the reweighted graph is the image of a walk of the original
graph, with the inverse weight relation. -/
theorem isWalk_of_reweight {g : Graph} {nw : ℕ → ℚ} {a b : ℕ}
    {q : List (ℕ × ℕ × ℚ)}
    (hq : IsWalk (_reweight_edges_using_node_weights g nw) a b q) :
    ∃ p, IsWalk g a b p ∧ walkWeight q = walkWeight p + nw a - nw b := by
  induction hq with
  | nil v => exact ⟨[], IsWalk.nil v, by simp⟩
  | cons he hq ih =>
      rename_i u v t w q'
      obtain ⟨p, hp, hw⟩ := ih
      unfold _reweight_edges_using_node_weights at he
      simp only [List.mem_map] at he
      obtain ⟨f, hf, hfe⟩ := he
      obtain ⟨f1, f2, f3⟩ := f
      simp only [Prod.mk.injEq] at hfe
      obtain ⟨h1, h2, h3⟩ := hfe
      subst h1
      subst h2
      refine ⟨(f1, f2, f3) :: p, IsWalk.cons hf hp, ?_⟩
      rw [walkWeight_cons, walkWeight_cons, hw, ← h3]
      dsimp only
      ring

/-- Undoing the reweighting on a shortest-distance profile of the reweighted
graph yields a shortest-distance profile of the original graph. -/
theorem corrected_shortest {g : Graph} {nw : ℕ → ℚ} {u : ℕ}
    {d2 : ℕ → DistVal}
    (h2 : IsShortestDist (_reweight_edges_using_node_weights g nw) u d2) :
    IsShortestDist g u (fun v => d2 v + ((nw v - nw u : ℚ) : DistVal)) := by
  constructor
  · intro v p hp
    dsimp only
    obtain ⟨hw2, hweq⟩ := isWalk_reweight nw hp
    have hub := h2.1 v _ hw2
    rw [hweq] at hub
    have heq : (walkWeight p : DistVal) =
        ((walkWeight p + nw u - nw v : ℚ) : DistVal) +
          ((nw v - nw u : ℚ) : DistVal) := by
      rw [← WithTop.coe_add]
      congr 1
      ring
    rw [heq]
    exact add_le_add_right hub _
  · intro v hv
    dsimp only at hv ⊢
    have hd2 : d2 v ≠ ⊤ := by
      intro htop
      rw [htop, top_add] at hv
      exact hv rfl
    obtain ⟨q, hq2, hqw⟩ := h2.2 v hd2
    obtain ⟨p, hp, hw⟩ := isWalk_of_reweight hq2
    refine ⟨p, hp, ?_⟩
    rw [← hqw, ← WithTop.coe_add]
    have hpq : walkWeight p = walkWeight q + (nw v - nw u) := by
      rw [hw]; ring
    rw [hpq]

/-- Unfolding `johnsons_all_pairs_shortest_paths` in the success case. -/
theorem johnsons_ok {g : Graph} {nw : ℕ → ℚ}
    (hcnw : _compute_node_weights g = .ok (nw, g)) :
    johnsons_all_pairs_shortest_paths g = .ok
      (fun u v => (dijkstra_sssp.dijkstra_shortest_paths
          (_reweight_edges_using_node_weights g nw) u).dist v +
        ((nw v - nw u : ℚ) : DistVal),
       fun u => (dijkstra_sssp.dijkstra_shortest_paths
          (_reweight_edges_using_node_weights g nw) u).pred) := by
  unfold johnsons_all_pairs_shortest_paths
  rw [show Graph.copy g = g from rfl]
  dsimp only
  rw [hcnw]

end johnsons_apsp

/-- The two-node graph with the single edge `1 → 2` has no cycle at all. -/
theorem no_negcycle_single_edge : ¬ HasNegCycle ⟨[1, 2], [(1, 2, -5)]⟩ := by
  rintro ⟨u, c, hc, hcne, -⟩
  cases hc with
  | nil => exact hcne rfl
  | cons he hp =>
      rename_i v w q
      have hev : (u, v, w) = (1, 2, -5) := by simpa using he
      have hu : u = 1 := congrArg Prod.fst hev
      have hv : v = 2 := congrArg Prod.fst (congrArg Prod.snd hev)
      subst hu hv
      cases hp with
      | cons he' hp' => simp at he'

/-! ### Claim theorems -/

open binary_heap in
/-- C7: for every sequence of `insert` and `extract_min` (`pop`) calls on the
binary min-heap, each `extract_min` returns an element whose key is smallest
among the elements currently in the heap; in particular, inserting the keys
5, 3, 8, 1 in that order and then extracting four times yields the key
sequence 1, 3, 5, 8. -/
theorem C7_extract_min_returns_minimum :
    (∀ {α : Type} [Inhabited α] [LinearOrder α] (h : BinaryHeap α),
        Reachable ltb h → h._items ≠ [] →
        ∃ x h', h.pop = .ok (x, h') ∧ x ∈ h._items ∧ ∀ y ∈ h._items, x ≤ y) ∧
      popAll 4 (((((BinaryHeap.empty (ltb (α := ℤ))).insert 5).insert 3).insert
        8).insert 1) = [1, 3, 5, 8] := by
  constructor
  · intro α _ _ h hr hne
    obtain ⟨hl, hinv⟩ := reachable_inv lessOk_ltb hr
    have hok : LessOk h._less := by rw [hl]; exact lessOk_ltb
    have hinv' : HeapInv h._less h._items := by rw [hl]; exact hinv
    obtain ⟨x, h', heq, -, hmem, hmin, -, -⟩ := pop_spec hok hinv' hne
    refine ⟨x, h', heq, hmem, ?_⟩
    intro y hy
    have hyx := hmin y hy
    rw [hl] at hyx
    simp only [ltb, decide_eq_false_iff_not, not_lt] at hyx
    exact hyx
  · simp [popAll, BinaryHeap.pop, BinaryHeap.insert, BinaryHeap.empty, _shift_up,
      _shift_down, _min_child, _swap, ltb, List.getD]

open binary_heap in
/-- Witness for C7 at a concrete reachable heap: the heap built by inserting
5, 3, 8, 1 into `BinaryHeap()`. -/
theorem C7_extract_min_returns_minimum_witness :
    ∃ x h',
      (((((BinaryHeap.empty (ltb (α := ℤ))).insert 5).insert 3).insert
        8).insert 1).pop = .ok (x, h') ∧
      x ∈ (((((BinaryHeap.empty (ltb (α := ℤ))).insert 5).insert 3).insert
        8).insert 1)._items ∧
      ∀ y ∈ (((((BinaryHeap.empty (ltb (α := ℤ))).insert 5).insert 3).insert
        8).insert 1)._items, x ≤ y :=
  C7_extract_min_returns_minimum.1 _
    (Reachable.insert 1 (Reachable.insert 8 (Reachable.insert 3
      (Reachable.insert 5 Reachable.empty))))
    (by simp [BinaryHeap.insert, BinaryHeap.empty, _shift_up, _swap, ltb, List.getD])

open binary_heap in
/-- C8: `extract_min` (`pop`) and `peek` on an empty heap fail with the
empty-heap error (the `LookupError` the source raises); on a non-empty heap,
`peek` returns the root element — `pop` alone mutates the heap, `peek` is a
pure read. -/
theorem C8_empty_heap_errors_and_peek :
    (∀ {α : Type} [Inhabited α] (h : BinaryHeap α), h._items = [] →
        h.pop = .error ⟨"pop from empty heap"⟩ ∧
        h.peek = .error ⟨"peek into empty heap"⟩) ∧
    (∀ {α : Type} [Inhabited α] (h : BinaryHeap α), h._items ≠ [] →
        h.peek = .ok (h._items.getD 0 default)) := by
  constructor
  · intro α _ h hnil
    constructor
    · unfold BinaryHeap.pop
      rw [if_pos (by simp [hnil])]
    · unfold BinaryHeap.peek
      rw [if_pos (by simp [hnil])]
  · intro α _ h hne
    unfold BinaryHeap.peek
    rw [if_neg (List.length_pos.mpr hne).ne']

open bellman_ford_sssp in
/-- C4: for every graph and every source node,
`bellman_ford_shortest_paths(graph, source)` raises `NegativeCycleError` if
and only if the graph contains a negative cycle reachable from the source —
equivalently, iff some edge still relaxes in the one extra verification pass
performed after exactly `|V| - 1` full relaxation passes; otherwise it returns
the final distance/predecessor maps and raises nothing. -/
theorem C4_bellman_ford_error_iff_negcycle (g : Graph) (hwf : g.WF) (s : ℕ) :
    (bellman_ford_shortest_paths g s = .error .mk ↔ HasNegCycleFrom g s) ∧
    (bellman_ford_shortest_paths g s = .error .mk ↔
      ∃ e ∈ g.edges,
        (bfIter g s (g.nodes.length - 1)).dist e.1 + (e.2.2 : DistVal) <
          (bfIter g s (g.nodes.length - 1)).dist e.2.1) ∧
    (¬ HasNegCycleFrom g s →
      bellman_ford_shortest_paths g s = .ok (bfIter g s (g.nodes.length - 1))) := by
  refine ⟨bf_error_iff_negcycle hwf s, bf_error_iff_relax g s, ?_⟩
  intro hnc
  rcases bf_error_or_ok g s with h | h
  · exact absurd ((bf_error_iff_negcycle hwf s).mp h) hnc
  · exact h

open bellman_ford_sssp in
/-- Witness for C4 at the two-node graph with the negative cycle
`1 → 2 → 1` of total weight `-11` (spec scenario 3): Bellman-Ford from node 1
raises `NegativeCycleError`. -/
theorem C4_bellman_ford_error_iff_negcycle_witness :
    bellman_ford_shortest_paths ⟨[1, 2], [(1, 2, -10), (2, 1, -1)]⟩ 1 =
      .error .mk :=
  (C4_bellman_ford_error_iff_negcycle ⟨[1, 2], [(1, 2, -10), (2, 1, -1)]⟩
      (by decide) 1).1.mpr
    ⟨1, [], [(1, 2, -10), (2, 1, -1)], IsWalk.nil 1,
      IsWalk.cons (by simp) (IsWalk.cons (by simp) (IsWalk.nil 1)),
      by decide, by norm_num [walkWeight]⟩

open bellman_ford_sssp johnsons_apsp in
/-- C3: for every graph containing a negative cycle (anywhere, regardless of
connectivity), `johnsons_all_pairs_shortest_paths` raises `NegativeCycleError`
and returns no partial distance or predecessor results; the error is the one
propagated out of `_compute_node_weights`, which in the source runs before any
Dijkstra call is started. -/
theorem C3_johnsons_negative_cycle_aborts (g : Graph) (hwf : g.WF)
    (hcyc : HasNegCycle g) :
    johnsons_all_pairs_shortest_paths g = .error .mk := by
  have herr : bellman_ford_shortest_paths (add_supersource g).2
      (add_supersource g).1 = .error .mk :=
    (bf_error_iff_negcycle (add_supersource_wf hwf) _).mpr
      ((hasNegCycleFrom_aug_iff hwf).mpr hcyc)
  unfold johnsons_all_pairs_shortest_paths _compute_node_weights
  simp [Graph.copy, herr]

open johnsons_apsp in
/-- Witness for C3 at the two-node negative-cycle graph. -/
theorem C3_johnsons_negative_cycle_aborts_witness :
    johnsons_all_pairs_shortest_paths ⟨[1, 2], [(1, 2, -10), (2, 1, -1)]⟩ =
      .error .mk :=
  C3_johnsons_negative_cycle_aborts ⟨[1, 2], [(1, 2, -10), (2, 1, -1)]⟩
    (by decide)
    ⟨1, [(1, 2, -10), (2, 1, -1)],
      IsWalk.cons (by simp) (IsWalk.cons (by simp) (IsWalk.nil 1)),
      by decide, by norm_num [walkWeight]⟩

open bellman_ford_sssp johnsons_apsp in
/-- C5: for every graph without a negative cycle, after step 4 of Johnson's
algorithm — reweighting every edge `(u, v)` by
`new_weight = old_weight + potential(u) - potential(v)`, the potentials being
the supersource-sourced Bellman-Ford distances computed by
`_compute_node_weights` — every edge weight in the working copy is `≥ 0`. -/
theorem C5_reweighted_edges_nonneg (g : Graph) (hwf : g.WF)
    (hnc : ¬ HasNegCycle g) :
    ∃ nw g1, _compute_node_weights g = .ok (nw, g1) ∧
      ∀ e ∈ (_reweight_edges_using_node_weights g1 nw).edges, 0 ≤ e.2.2 := by
  have hok : bellman_ford_shortest_paths (add_supersource g).2
      (add_supersource g).1 =
      .ok (bfIter (add_supersource g).2 (add_supersource g).1
        ((add_supersource g).2.nodes.length - 1)) := by
    rcases bf_error_or_ok (add_supersource g).2 (add_supersource g).1 with h | h
    · exact absurd ((hasNegCycleFrom_aug_iff hwf).mp
        ((bf_error_iff_negcycle (add_supersource_wf hwf) _).mp h)) hnc
    · exact h
  have hcnw : _compute_node_weights g = .ok
      (fun v => ((bfIter (add_supersource g).2 (add_supersource g).1
        ((add_supersource g).2.nodes.length - 1)).dist v).untop' 0,
       remove_node (add_supersource g).2 (add_supersource g).1) := by
    unfold _compute_node_weights
    simp only [hok]
  refine ⟨_, _, hcnw, ?_⟩
  rw [remove_add_supersource hwf]
  intro e' he'
  unfold _reweight_edges_using_node_weights at he'
  simp only [List.mem_map] at he'
  obtain ⟨e, he, rfl⟩ := he'
  dsimp only
  have htri := (bf_ok_iff_no_relax _ _).mp hok e
    (by simp only [add_supersource, List.mem_append]; exact Or.inl he)
  have hufin := aug_dist_finite (g := g) (hwf.2 e he).1
  have hvfin := aug_dist_finite (g := g) (hwf.2 e he).2
  obtain ⟨a, ha⟩ := WithTop.ne_top_iff_exists.mp hufin
  obtain ⟨b, hb⟩ := WithTop.ne_top_iff_exists.mp hvfin
  rw [← ha, ← hb] at htri
  have hq : b ≤ a + e.2.2 := by exact_mod_cast htri
  rw [← ha, ← hb, WithTop.untop'_coe, WithTop.untop'_coe]
  linarith

open johnsons_apsp in
/-- Witness for C5 at a two-node graph with one negative edge and no cycle. -/
theorem C5_reweighted_edges_nonneg_witness :
    ∃ nw g1, _compute_node_weights ⟨[1, 2], [(1, 2, -5)]⟩ = .ok (nw, g1) ∧
      ∀ e ∈ (_reweight_edges_using_node_weights g1 nw).edges, 0 ≤ e.2.2 :=
  C5_reweighted_edges_nonneg ⟨[1, 2], [(1, 2, -5)]⟩ (by decide)
    no_negcycle_single_edge

open bellman_ford_sssp dijkstra_sssp in
/-- C2: for every well-formed graph `G` with all edge weights non-negative,
every source `s` and every node `t` reachable from `s`,
`bellman_ford_shortest_paths(G, s)` returns normally and its `distance[t]`
equals the `distance[t]` computed by `dijkstra_shortest_paths(G, s)`. -/
theorem C2_dijkstra_matches_bellman_ford (g : Graph) (hwf : g.WF)
    (hnn : ∀ e ∈ g.edges, 0 ≤ e.2.2) (s t : ℕ) (ht : t ∈ g.nodes)
    (hreach : ∃ p, IsWalk g s t p) :
    ∃ dp, bellman_ford_shortest_paths g s = .ok dp ∧
      dp.dist t = (dijkstra_shortest_paths g s).dist t := by
  obtain ⟨p, hp⟩ := hreach
  have hs : s ∈ g.nodes := by
    cases hp with
    | nil => exact ht
    | cons he hq => exact (hwf.2 _ he).1
  have hncf : ¬ HasNegCycleFrom g s :=
    fun h => no_negcycle_of_nonneg hnn h.hasNegCycle
  obtain ⟨hok, hshort⟩ := bf_correct hwf hs hncf
  exact ⟨_, hok, hshort.unique (dijkstra_shortest hwf hnn hs) t⟩

open bellman_ford_sssp dijkstra_sssp in
/-- Witness for C2 at the two-node graph `1 → 2` with weight 2, source 1 and
target 2. -/
theorem C2_dijkstra_matches_bellman_ford_witness :
    ∃ dp, bellman_ford_shortest_paths ⟨[1, 2], [(1, 2, 2)]⟩ 1 = .ok dp ∧
      dp.dist 2 = (dijkstra_shortest_paths ⟨[1, 2], [(1, 2, 2)]⟩ 1).dist 2 :=
  C2_dijkstra_matches_bellman_ford ⟨[1, 2], [(1, 2, 2)]⟩ (by decide)
    (by
      intro e he
      simp only [List.mem_singleton] at he
      subst he
      norm_num)
    1 2 (by decide)
    ⟨[(1, 2, 2)], IsWalk.cons (by simp) (IsWalk.nil 2)⟩

open bellman_ford_sssp in
/-- C9 counterexample: requesting a Bellman-Ford solve from source 2, which is
not a node of the single-node graph `{1}`, does not raise anything — the call
returns normally (`InvalidNodeError` does not exist in the code; `_init`
simply creates the `dist[source] = 0` entry). -/
theorem C9_invalid_source_counterexample :
    (2 ∉ (⟨[1], []⟩ : Graph).nodes) ∧
      bellman_ford_shortest_paths ⟨[1], []⟩ 2 = .ok (_init ⟨[1], []⟩ 2) :=
  ⟨by decide, bf_ok_of_not_mem (by decide) (by decide)⟩

open bellman_ford_sssp in
/-- C9 (amended): for every well-formed graph and every source value that is
not a node of the graph, `bellman_ford_shortest_paths` raises nothing — in
particular no `InvalidNodeError`, which does not exist in the code — and
returns maps with `dist[source] = 0`, every graph node at `+infinity`, and all
predecessors `None`.  (`dijkstra_shortest_paths` on the same input dies with a
`KeyError` on the uninitialized `finalized[source]` lookup, not an
`InvalidNodeError`; that exception path lies outside this embedding's
total-function dict model and is not formalized.) -/
theorem C9_invalid_source_amended (g : Graph) (hwf : g.WF) (s : ℕ)
    (hs : s ∉ g.nodes) :
    bellman_ford_shortest_paths g s = .ok (_init g s) ∧
    (_init g s).dist s = 0 ∧
    (∀ v ∈ g.nodes, (_init g s).dist v = ⊤) ∧
    (∀ v, (_init g s).pred v = none) := by
  refine ⟨bf_ok_of_not_mem hwf hs, by simp [_init], ?_, fun v => rfl⟩
  intro v hv
  exact init_dist_top_of_ne (fun hcontra => hs (hcontra ▸ hv))

open bellman_ford_sssp in
/-- Witness for the amended C9 at the single-node graph `{1}` with source 2. -/
theorem C9_invalid_source_amended_witness :
    bellman_ford_shortest_paths ⟨[1], []⟩ 2 = .ok (_init ⟨[1], []⟩ 2) ∧
    (_init (⟨[1], []⟩ : Graph) 2).dist 2 = 0 ∧
    (∀ v ∈ (⟨[1], []⟩ : Graph).nodes, (_init (⟨[1], []⟩ : Graph) 2).dist v = ⊤) ∧
    (∀ v, (_init (⟨[1], []⟩ : Graph) 2).pred v = none) :=
  C9_invalid_source_amended ⟨[1], []⟩ (by decide) 2 (by decide)

/-- C6: after any call to `bellman_ford_shortest_paths`,
`dijkstra_shortest_paths`, `has_negative_cycle` or
`johnsons_all_pairs_shortest_paths` — returning normally or raising — the
caller-supplied graph's node set, edge set and edge weights are unchanged:
the threaded caller object each `*_run` function returns is the value that
was passed in.  (The solvers call only reading methods on their argument;
the two copying solvers mutate only their `graph_.copy()`.) -/
theorem C6_callers_graph_unchanged (g : Graph) (s : ℕ) :
    (bellman_ford_run g s).2 = g ∧ (dijkstra_run g s).2 = g ∧
    (has_negative_cycle_run g).2 = g ∧ (johnsons_run g).2 = g :=
  ⟨rfl, rfl, rfl, rfl⟩

open bellman_ford_sssp johnsons_apsp in
/-- C1: for every well-formed graph without a negative cycle,
`johnsons_all_pairs_shortest_paths` returns a nested distance map in which
`dist[u][v]` equals, for every node `u` and every `v`, the `distance[v]`
returned by running `bellman_ford_shortest_paths(graph, u)` independently
from each source `u`. -/
theorem C1_johnsons_matches_bellman_ford (g : Graph) (hwf : g.WF)
    (hnc : ¬ HasNegCycle g) :
    ∃ d p, johnsons_all_pairs_shortest_paths g = .ok (d, p) ∧
      ∀ u ∈ g.nodes, ∃ dp, bellman_ford_shortest_paths g u = .ok dp ∧
        ∀ v, d u v = dp.dist v := by
  obtain ⟨nw, hcnw, htri⟩ := compute_node_weights_spec hwf hnc
  refine ⟨_, _, johnsons_ok hcnw, ?_⟩
  intro u hu
  have hncf : ¬ HasNegCycleFrom g u := fun h => hnc h.hasNegCycle
  obtain ⟨hok, hshort⟩ := bf_correct hwf hu hncf
  refine ⟨_, hok, ?_⟩
  intro v
  have hg2wf := reweight_wf hwf nw
  have hg2nn := reweight_nonneg htri
  have hu2 : u ∈ (_reweight_edges_using_node_weights g nw).nodes := hu
  have hd2 := dijkstra_sssp.dijkstra_shortest hg2wf hg2nn hu2
  have hcorr := corrected_shortest hd2
  exact hcorr.unique hshort v

open johnsons_apsp in
/-- Witness for C1 at the two-node graph with one negative edge and no
cycle. -/
theorem C1_johnsons_matches_bellman_ford_witness :
    ∃ d p, johnsons_all_pairs_shortest_paths ⟨[1, 2], [(1, 2, -5)]⟩ =
        .ok (d, p) ∧
      ∀ u ∈ (⟨[1, 2], [(1, 2, -5)]⟩ : Graph).nodes, ∃ dp,
        bellman_ford_sssp.bellman_ford_shortest_paths
          ⟨[1, 2], [(1, 2, -5)]⟩ u = .ok dp ∧
        ∀ v, d u v = dp.dist v :=
  C1_johnsons_matches_bellman_ford ⟨[1, 2], [(1, 2, -5)]⟩ (by decide)
    no_negcycle_single_edge

open johnsons_apsp in
/-- C10: for every well-formed graph without a negative cycle, the nested
distance map returned by `johnsons_all_pairs_shortest_paths` satisfies
`dist[u][u] = 0` for every node `u`: Dijkstra assigns the source distance 0
on the non-negatively reweighted graph, and the final correction
`dist[u][u] - potential(u) + potential(u)` leaves it 0. -/
theorem C10_johnsons_diagonal_zero (g : Graph) (hwf : g.WF)
    (hnc : ¬ HasNegCycle g) :
    ∃ d p, johnsons_all_pairs_shortest_paths g = .ok (d, p) ∧
      ∀ u ∈ g.nodes, d u u = 0 := by
  obtain ⟨nw, hcnw, htri⟩ := compute_node_weights_spec hwf hnc
  refine ⟨_, _, johnsons_ok hcnw, ?_⟩
  intro u hu
  have hg2wf := reweight_wf hwf nw
  have hg2nn := reweight_nonneg htri
  have hu2 : u ∈ (_reweight_edges_using_node_weights g nw).nodes := hu
  have hd2 := dijkstra_sssp.dijkstra_shortest hg2wf hg2nn hu2
  have hub : (dijkstra_sssp.dijkstra_shortest_paths
      (_reweight_edges_using_node_weights g nw) u).dist u ≤ 0 := by
    have := hd2.1 u [] (IsWalk.nil u)
    simpa using this
  have hne : (dijkstra_sssp.dijkstra_shortest_paths
      (_reweight_edges_using_node_weights g nw) u).dist u ≠ ⊤ := by
    intro htop
    rw [htop, top_le_iff] at hub
    exact WithTop.zero_ne_top hub
  obtain ⟨q, hq, hqw⟩ := hd2.2 u hne
  have hq0 : 0 ≤ walkWeight q := walkWeight_nonneg hg2nn hq
  have hzero : (dijkstra_sssp.dijkstra_shortest_paths
      (_reweight_edges_using_node_weights g nw) u).dist u = 0 := by
    apply le_antisymm hub
    rw [← hqw]
    exact_mod_cast hq0
  rw [hzero, sub_self]
  simp

open johnsons_apsp in
/-- Witness for C10 at the two-node graph with one negative edge and no
cycle. -/
theorem C10_johnsons_diagonal_zero_witness :
    ∃ d p, johnsons_all_pairs_shortest_paths ⟨[1, 2], [(1, 2, -5)]⟩ =
        .ok (d, p) ∧
      ∀ u ∈ (⟨[1, 2], [(1, 2, -5)]⟩ : Graph).nodes, d u u = 0 :=
  C10_johnsons_diagonal_zero ⟨[1, 2], [(1, 2, -5)]⟩ (by decide)
    no_negcycle_single_edge

open binary_heap in
/-- Witness for C8: the empty integer heap errors on `pop`; after inserting
the single key 7, `peek` returns 7. -/
theorem C8_empty_heap_errors_and_peek_witness :
    (BinaryHeap.empty (ltb (α := ℤ))).pop = .error ⟨"pop from empty heap"⟩ ∧
      ((BinaryHeap.empty (ltb (α := ℤ))).insert 7).peek = .ok 7 := by
  constructor
  · exact (C8_empty_heap_errors_and_peek.1 _ rfl).1
  · have h7 := C8_empty_heap_errors_and_peek.2
      ((BinaryHeap.empty (ltb (α := ℤ))).insert 7)
      (by simp [BinaryHeap.insert, BinaryHeap.empty, _shift_up, _swap, ltb, List.getD])
    rw [h7]
    simp [BinaryHeap.insert, BinaryHeap.empty, _shift_up, _swap, ltb, List.getD]

end Py3Algs
